import Mathlib

/-!
Verification of the rich-text formatting engine of the transient-notes
application (src/app.js).  The engine operates on the browser DOM through
the Selection/Range API; we embed the relevant DOM fragment shallowly:

* a DOM node is either a text node or an element with a tag and children
  (`DNode`); the editable surface (`noteBody`) is the root element;
* a selection boundary point is a path from the root plus an offset
  (`Pos`), exactly mirroring the DOM pair (container node, offset): the
  offset indexes characters of a text node or children of an element;
* a range is an ordered pair of boundary points (`SelRange`), mirroring
  the normalized `Range` object returned by `selection.getRangeAt(0)`.

Modelling conventions, stated once here and referenced below:
* DOM `tagName` is uppercase for HTML elements; we store tags uppercase
  and the engine functions uppercase their argument exactly where the
  source calls `toUpperCase()` / `createElement`.
* empty text fragments produced by splitting at a boundary are not
  materialized (the DOM can leave empty text nodes behind; they carry no
  content and the app never observes them);
* assigning a plain string to `innerHTML` is modelled as producing a
  single text node (faithful for strings free of markup metacharacters),
  and the `innerHTML` read/assign round trip used to copy children is
  modelled as the identity on the child list;
* `surroundContents` is extract-then-insert per the DOM specification,
  which coincides with the source's catch-fallback (extractContents,
  appendChild, insertNode), so the toggle-on branch is a single function.
-/

namespace TN

/-- DOM-like document node: a text node or an element with uppercase tag. -/
inductive DNode where
  | text (s : String)
  | elem (tag : String) (children : List DNode)
deriving Repr

instance : Inhabited DNode := ⟨.text ""⟩

mutual

/-- Decidable equality of document nodes. -/
def decEqDNode : (a : DNode) → (b : DNode) → Decidable (a = b)
  | .text s, .text t =>
      if h : s = t then .isTrue (by rw [h]) else .isFalse (by intro hq; injection hq; contradiction)
  | .text _, .elem _ _ => .isFalse (fun hq => DNode.noConfusion hq)
  | .elem _ _, .text _ => .isFalse (fun hq => DNode.noConfusion hq)
  | .elem t1 c1, .elem t2 c2 =>
      if h : t1 = t2 then
        match decEqListDNode c1 c2 with
        | .isTrue hc => .isTrue (by rw [h, hc])
        | .isFalse hc => .isFalse (by intro hq; injection hq; contradiction)
      else .isFalse (by intro hq; injection hq; contradiction)

/-- Decidable equality of node lists. -/
def decEqListDNode : (as : List DNode) → (bs : List DNode) → Decidable (as = bs)
  | [], [] => .isTrue rfl
  | [], _ :: _ => .isFalse (fun hq => List.noConfusion hq)
  | _ :: _, [] => .isFalse (fun hq => List.noConfusion hq)
  | a :: as, b :: bs =>
      match decEqDNode a b, decEqListDNode as bs with
      | .isTrue h1, .isTrue h2 => .isTrue (by rw [h1, h2])
      | .isFalse h1, _ => .isFalse (by intro hq; injection hq; contradiction)
      | .isTrue _, .isFalse h2 => .isFalse (by intro hq; injection hq; contradiction)

end

instance : DecidableEq DNode := decEqDNode

/-- Children of a node (`childNodes`); text nodes have none. -/
def childrenOf : DNode → List DNode
  | .text _ => []
  | .elem _ cs => cs

mutual

/-- Flattened character content of a node (DOM `textContent`), as a char list. -/
def nodeChars : DNode → List Char
  | .text s => s.data
  | .elem _ cs => listChars cs

/-- Flattened character content of a sibling list. -/
def listChars : List DNode → List Char
  | [] => []
  | c :: cs => nodeChars c ++ listChars cs

end

/-- DOM `textContent` of a node as a string. -/
def nodeText (n : DNode) : String := String.mk (nodeChars n)

/-- Node lookup along a child-index path from the root (`none` if absent). -/
def getNode? : DNode → List Nat → Option DNode
  | n, [] => some n
  | .elem _ cs, i :: p =>
      match cs.get? i with
      | some c => getNode? c p
      | none => none
  | .text _, _ :: _ => none

/-- Node lookup with the default node for absent paths. -/
def nodeAtD (doc : DNode) (p : List Nat) : DNode := (getNode? doc p).getD default

/-- Boundary point: path to the container node plus an offset into it. -/
structure Pos where
  path : List Nat
  off : Nat
deriving Repr, DecidableEq

/-- Normalized DOM range: start and end boundary points in document order. -/
structure SelRange where
  s : Pos
  e : Pos
deriving Repr, DecidableEq

/-- Source `isRangeEmpty`: a DOM range is collapsed iff the two boundary
points coincide. -/
def isRangeEmpty (r : SelRange) : Bool := r.s = r.e

/-- ASCII uppercase of a character, as performed by `toUpperCase` on the
tag names the source passes around. -/
def upChar (c : Char) : Char :=
  if 97 ≤ c.toNat ∧ c.toNat ≤ 122 then Char.ofNat (c.toNat - 32) else c

/-- ASCII uppercase of a string (JavaScript `toUpperCase` restricted to the
ASCII tag names used by the source). -/
def upStr (s : String) : String := String.mk (s.data.map upChar)

/-- Block tags recognized by the source's `isBlockElement`. -/
def blockTags : List String :=
  ["P", "DIV", "H1", "H2", "H3", "H4", "H5", "H6", "BLOCKQUOTE", "LI"]

/-- Source `isBlockElement`: an element whose tag is in `blockTags`. -/
def isBlockElement : DNode → Bool
  | .elem t _ => blockTags.contains t
  | .text _ => false

/-- Whether the node is an element (DOM `nodeType === ELEMENT_NODE`). -/
def isElemNode : DNode → Bool
  | .elem _ _ => true
  | .text _ => false

/-- Number of element children (DOM `children.length`, which counts only
element nodes, unlike `childNodes`). -/
def elemChildCount (n : DNode) : Nat := ((childrenOf n).filter isElemNode).length

/-- Nonempty prefixes of a path, longest (deepest node) first: the chain of
nodes visited walking from the node at `p` up to, but excluding, the root. -/
def ancestorsDesc (p : List Nat) : List (List Nat) :=
  ((List.range p.length).reverse).map (fun k => p.take (k + 1))

/-- Whether the node at path `q` is an element with tag `t`. -/
def isTagAt (doc : DNode) (q : List Nat) (t : String) : Bool :=
  match getNode? doc q with
  | some (.elem tg _) => tg = t
  | _ => false

/-- Whether the node at path `q` is a block element. -/
def isBlockAt (doc : DNode) (q : List Nat) : Bool :=
  match getNode? doc q with
  | some n => isBlockElement n
  | none => false

/-- Source `hasParentWithTag`: walk from the node at `p` upward, stopping
before the editor root, returning the first (deepest) element whose tag
equals the uppercased argument; the root itself never matches. -/
def hasParentWithTag (doc : DNode) (p : List Nat) (tagName : String) :
    Option (List Nat) :=
  (ancestorsDesc p).find? (fun q => isTagAt doc q (upStr tagName))

/-- Source `findParentBlock`: step from a text node to its parent, then walk
upward until a block element is found; reaching the editor root yields
`none`. -/
def findParentBlock (doc : DNode) (p : List Nat) : Option (List Nat) :=
  let q := match getNode? doc p with
    | some (.text _) => p.dropLast
    | _ => p
  (ancestorsDesc q).find? (fun a => isBlockAt doc a)

/-- Deepest common ancestor of two paths (DOM `commonAncestorContainer` of
the range with those container paths): the longest common prefix. -/
def commonAncPath : List Nat → List Nat → List Nat
  | i :: p, j :: q => if i = j then i :: commonAncPath p q else []
  | _, _ => []

/-- Path of the range's `commonAncestorContainer`. -/
def cacPath (r : SelRange) : List Nat := commonAncPath r.s.path r.e.path

/-- Replace the node at a (nonempty) path by another node, preserving
siblings (`replaceWith`); invalid paths leave the document unchanged. -/
def replaceNodeAt : DNode → List Nat → DNode → DNode
  | .elem t cs, [i], new => .elem t (cs.set i new)
  | .elem t cs, i :: p, new =>
      .elem t (cs.set i (replaceNodeAt (cs.getD i default) p new))
  | n, _, _ => n

/-- Source `unwrapElement`: splice the children of the element at the path
into its parent at the same position and drop the element. -/
def unwrapElement : DNode → List Nat → DNode
  | .elem t cs, [i] =>
      .elem t (cs.take i ++ childrenOf (cs.getD i default) ++ cs.drop (i + 1))
  | .elem t cs, i :: p =>
      .elem t (cs.set i (unwrapElement (cs.getD i default) p))
  | n, _ => n

/-- Validity of a boundary point relative to a sibling list: the empty path
addresses the list's owner, so the offset indexes the list; otherwise the
path descends into an existing child, bottoming out in a text node with a
character offset or an element with a child offset. -/
def validPosList (cs : List DNode) : List Nat → Nat → Bool
  | [], off => off ≤ cs.length
  | i :: p, off =>
      match cs.get? i, p with
      | some (.text s), [] => off ≤ s.length
      | some (.elem _ ccs), _ => validPosList ccs p off
      | _, _ => false

/-- Validity of a boundary point inside a single node: the empty path
addresses the node itself (character offset for a text node, child offset
for an element), a nonempty path descends into an element's children. -/
def validPosNode : DNode → List Nat → Nat → Bool
  | .text s, [], off => off ≤ s.length
  | .elem _ cs, p, off => validPosList cs p off
  | .text _, _ :: _, _ => false

/-- Validity of a boundary point in a document rooted at an element. -/
def validPos (doc : DNode) (pos : Pos) : Bool :=
  match doc with
  | .elem _ cs => validPosList cs pos.path pos.off
  | .text s => pos.path = ([] : List Nat) && pos.off ≤ s.length

/-- Document order on boundary points (start before or at end). -/
def bpLE : List Nat → Nat → List Nat → Nat → Bool
  | [], o1, [], o2 => o1 ≤ o2
  | [], o1, j :: _, _ => o1 ≤ j
  | i :: _, _, [], o2 => i < o2
  | i :: p, o1, j :: q, o2 => i < j || (i = j && bpLE p o1 q o2)

/-- Valid normalized range: both boundary points valid and in order. -/
def validRange (doc : DNode) (r : SelRange) : Bool :=
  validPos doc r.s && validPos doc r.e && bpLE r.s.path r.s.off r.e.path r.e.off

/-- Number of flattened characters strictly before a boundary point, the
boundary being relative to the given sibling list: characters of the
siblings before the addressed child plus the characters before the
boundary inside it (a text child contributes its character offset). -/
def gOffList : List DNode → List Nat → Nat → Nat
  | cs, [], off => (listChars (cs.take off)).length
  | cs, i :: p, off =>
      (listChars (cs.take i)).length +
        (match cs.getD i default with
          | .text _ => off
          | .elem _ ccs => gOffList ccs p off)

/-- Number of flattened characters strictly before a boundary point inside
a single node. -/
def gOffNode (n : DNode) (p : List Nat) (off : Nat) : Nat :=
  match n with
  | .text _ => off
  | .elem _ cs => gOffList cs p off

/-- Global character offset of a boundary point in the document. -/
def gOffTop (doc : DNode) (pos : Pos) : Nat := gOffNode doc pos.path pos.off

/-- Stringification of a DOM range (`range.toString()`): the concatenated
character data between the two boundary points, i.e. the slice of the
document's flattened text between the boundary points' global offsets. -/
def rangeToString (doc : DNode) (r : SelRange) : String :=
  String.mk (((nodeChars doc).drop (gOffTop doc r.s)).take
    (gOffTop doc r.e - gOffTop doc r.s))

/-- Remainder of a node strictly after a boundary point inside it, cloning
partially contained elements, as in `extractContents`; empty text pieces
are not materialized. -/
def extAfter : DNode → List Nat → Nat → List DNode
  | .text s, [], off =>
      let t := s.data.drop off
      if t.isEmpty then [] else [.text (String.mk t)]
  | .elem tg cs, [], off => [.elem tg (cs.drop off)]
  | .elem tg cs, i :: p, off =>
      [.elem tg (extAfter (cs.getD i default) p off ++ cs.drop (i + 1))]
  | .text s, _ :: _, _ => []

/-- Part of a node strictly before a boundary point inside it, cloning
partially contained elements, as in `extractContents`. -/
def extBefore : DNode → List Nat → Nat → List DNode
  | .text s, [], off =>
      let t := s.data.take off
      if t.isEmpty then [] else [.text (String.mk t)]
  | .elem tg cs, [], off => [.elem tg (cs.take off)]
  | .elem tg cs, j :: p, off =>
      [.elem tg (cs.take j ++ extBefore (cs.getD j default) p off)]
  | .text s, _ :: _, _ => []

/-- What remains of a node when everything strictly before the boundary
point is deleted (`deleteContents` on the end-side partial node). -/
def delBefore : DNode → List Nat → Nat → List DNode
  | .text s, [], off =>
      let t := s.data.drop off
      if t.isEmpty then [] else [.text (String.mk t)]
  | .elem tg cs, [], off => [.elem tg (cs.drop off)]
  | .elem tg cs, j :: p, off =>
      [.elem tg (delBefore (cs.getD j default) p off ++ cs.drop (j + 1))]
  | .text s, _ :: _, _ => [.text s]

/-- What remains of the start-side partially contained node after
`deleteContents`: the node stays in the tree trimmed to everything
strictly before the boundary point (an empty text remainder is not
materialized). -/
def delAfter : DNode → List Nat → Nat → List DNode
  | .text s, [], off =>
      let pre := s.data.take off
      if pre.isEmpty then [] else [.text (String.mk pre)]
  | .elem tg cs, [], off => [.elem tg (cs.take off)]
  | .elem tg cs, i :: p, off =>
      [.elem tg (cs.take i ++ delAfter (cs.getD i default) p off)]
  | .text s, _ :: _, _ => [.text s]

/-- Fragment extracted by `extractContents` from a sibling list, the two
boundary points being relative to the list's owner: fully contained
siblings move whole, partially contained boundary nodes are cloned with
their contained parts. -/
def extRangeList : List DNode → List Nat → Nat → List Nat → Nat → List DNode
  | cs, [], o1, [], o2 => (cs.drop o1).take (o2 - o1)
  | cs, [], o1, j :: q, o2 =>
      (cs.drop o1).take (j - o1) ++ extBefore (cs.getD j default) q o2
  | cs, i :: p, o1, [], o2 =>
      extAfter (cs.getD i default) p o1 ++ (cs.drop (i + 1)).take (o2 - i - 1)
  | cs, i :: p, o1, j :: q, o2 =>
      if i = j then
        match cs.getD i default with
        | .text s =>
            let t := (s.data.take o2).drop o1
            if t.isEmpty then [] else [.text (String.mk t)]
        | .elem _ ccs => extRangeList ccs p o1 q o2
      else
        extAfter (cs.getD i default) p o1 ++
          ((cs.drop (i + 1)).take (j - i - 1)) ++ extBefore (cs.getD j default) q o2

/-- Deletion of a range from a sibling list combined with insertion of the
given new nodes (`deleteContents` followed by `insertNode`): keeps the
parts of partially contained boundary nodes that lie outside the range.
Per the DOM specification, after `deleteContents` the range is collapsed
at the original start boundary when the start container is this list's
owner or the boundary nodes coincide (a shared text container is split by
the insertion), and otherwise at the common ancestor just after the
trimmed topmost partially contained start child, where `insertNode` then
places the new nodes as siblings.  Also returns the index path of the
first inserted node relative to the returned list. -/
def replRangeListN :
    List DNode → List Nat → Nat → List Nat → Nat → List DNode →
    (List DNode × List Nat)
  | cs, [], o1, [], o2, new => (cs.take o1 ++ new ++ cs.drop o2, [o1])
  | cs, [], o1, j :: q, o2, new =>
      (cs.take o1 ++ new ++ delBefore (cs.getD j default) q o2 ++ cs.drop (j + 1),
        [o1])
  | cs, i :: p, o1, [], o2, new =>
      let kept := delAfter (cs.getD i default) p o1
      (cs.take i ++ kept ++ new ++ cs.drop o2, [i + kept.length])
  | cs, i :: p, o1, j :: q, o2, new =>
      if i = j then
        match cs.getD i default with
        | .text s =>
            let pre := s.data.take o1
            let post := s.data.drop o2
            let preL := if pre.isEmpty then [] else [DNode.text (String.mk pre)]
            let postL := if post.isEmpty then [] else [DNode.text (String.mk post)]
            (cs.take i ++ preL ++ new ++ postL ++ cs.drop (i + 1),
              [i + preL.length])
        | .elem tg ccs =>
            let r := replRangeListN ccs p o1 q o2 new
            (cs.take i ++ [DNode.elem tg r.1] ++ cs.drop (i + 1), i :: r.2)
      else
        let kept := delAfter (cs.getD i default) p o1
        (cs.take i ++ kept ++ new ++ delBefore (cs.getD j default) q o2
            ++ cs.drop (j + 1),
          [i + kept.length])

/-- `extractContents` of a range in the document. -/
def extractRange (doc : DNode) (r : SelRange) : List DNode :=
  match doc with
  | .elem _ cs => extRangeList cs r.s.path r.s.off r.e.path r.e.off
  | .text _ => []

/-- Deletion of a range combined with insertion of nodes at its start
(`deleteContents` then `insertNode`); also returns the path of the first
inserted node in the new document. -/
def replaceRangeN (doc : DNode) (r : SelRange) (new : List DNode) :
    DNode × List Nat :=
  match doc with
  | .elem tg cs =>
      let res := replRangeListN cs r.s.path r.s.off r.e.path r.e.off new
      (.elem tg res.1, res.2)
  | .text s => (.text s, [])

/-- Content length of a node: characters of a text node, child count of an
element (the end offset of `selectNodeContents`). -/
def contentLen : DNode → Nat
  | .text s => s.length
  | .elem _ cs => cs.length

/-- Range produced by `selectNodeContents` on the node at the path: spans
the node's full content. -/
def selectContents (doc : DNode) (p : List Nat) : SelRange :=
  ⟨⟨p, 0⟩, ⟨p, contentLen (nodeAtD doc p)⟩⟩

/-- Range produced by `selectNodeContents` followed by `collapse(false)`:
a caret at the end of the node's content. -/
def collapseEnd (doc : DNode) (p : List Nat) : SelRange :=
  let o := contentLen (nodeAtD doc p)
  ⟨⟨p, o⟩, ⟨p, o⟩⟩

/-- Toggle-on half of `applyInlineStyle`: wrap the selected content in a
new element with the given (already uppercased) tag.  The source first
tries `range.surroundContents(wrapper)` and falls back on
`extractContents` / `appendChild` / `insertNode` for complex selections;
per the DOM specification `surroundContents` is exactly that same
extract-insert-append sequence (it merely throws early on partially
selected non-text nodes), so both paths are this one function.  The new
selection spans the wrapper's contents. -/
def inlineWrap (tagU : String) (doc : DNode) (r : SelRange) :
    DNode × SelRange :=
  let frag := extractRange doc r
  let res := replaceRangeN doc r [DNode.elem tagU frag]
  (res.1, selectContents res.1 res.2)

/-- Source `applyInlineStyle`: no-op on a collapsed selection; if an
ancestor element with the requested tag exists and the selection's text
equals that element's entire text content, unwrap it and re-select the
text node among the parent's children whose content equals the unwrapped
element's former text content (first match; selection left unchanged when
no such text node exists); otherwise wrap the selection in a new element
with the tag. -/
def applyInlineStyle (tagName : String) (doc : DNode) (r : SelRange) :
    DNode × SelRange :=
  if isRangeEmpty r then (doc, r) else
  let tagU := upStr tagName
  match hasParentWithTag doc (cacPath r) tagName with
  | some sp =>
      if rangeToString doc r = nodeText (nodeAtD doc sp) then
        let parentPath := sp.dropLast
        let tcontent := nodeText (nodeAtD doc sp)
        let doc1 := unwrapElement doc sp
        let pchildren := childrenOf (nodeAtD doc1 parentPath)
        match pchildren.findIdx? (fun c =>
            match c with
            | .text s2 => s2 = tcontent
            | .elem _ _ => false) with
        | some k => (doc1, selectContents doc1 (parentPath ++ [k]))
        | none => (doc1, r)
      else inlineWrap tagU doc r
  | none => inlineWrap tagU doc r

/-- Source `applyBlockFormat`: if no enclosing block exists, build a new
block element whose content is the selection's text (or a `<br>`
placeholder when that text is empty), delete the selected range and insert
the block at its position; otherwise replace the enclosing block by a new
element with the same children, tagged `P` when the block already has the
requested tag and with the requested tag otherwise.  The returned
selection is a caret at the end of the new block's content. -/
def applyBlockFormat (tagName : String) (doc : DNode) (r : SelRange) :
    DNode × SelRange :=
  let tagU := upStr tagName
  match findParentBlock doc (cacPath r) with
  | none =>
      let str := rangeToString doc r
      let content := if str = "" then [DNode.elem "BR" []] else [DNode.text str]
      let newBlock := DNode.elem tagU content
      let res := replaceRangeN doc r [newBlock]
      (res.1, collapseEnd res.1 res.2)
  | some bp =>
      match nodeAtD doc bp with
      | .elem btag bcs =>
          let newTag := if btag = tagU then "P" else tagU
          let doc1 := replaceNodeAt doc bp (.elem newTag bcs)
          (doc1, collapseEnd doc1 bp)
      | .text _ => (doc, r)

/-- Source `toggleList`: if the selection has a `UL` ancestor, or failing
that an `OL` ancestor (the requested list kind is never compared), and an
enclosing `LI` exists, convert: when the list has exactly one element
child, replace the whole list with a `P` holding the item's children,
otherwise replace just the item with that `P` in place (leaving the `P`
among the list's children); with no `LI` the call does nothing.  With no
enclosing list, wrap the enclosing block's children in a fresh single-item
list of the requested kind replacing the block, or, with no block either,
build the item from the selection's text (or a `<br>` placeholder) and
insert the new list at the deleted range's position.  The returned
selection is a caret at the end of the affected paragraph or item. -/
def toggleList (listType : String) (doc : DNode) (r : SelRange) :
    DNode × SelRange :=
  let cac := cacPath r
  match (hasParentWithTag doc cac "ul").orElse
      (fun _ => hasParentWithTag doc cac "ol") with
  | some lp =>
      match hasParentWithTag doc cac "li" with
      | some lip =>
          let p := DNode.elem "P" (childrenOf (nodeAtD doc lip))
          if elemChildCount (nodeAtD doc lp) = 1 then
            let doc1 := replaceNodeAt doc lp p
            (doc1, collapseEnd doc1 lp)
          else
            let doc1 := replaceNodeAt doc lip p
            (doc1, collapseEnd doc1 lip)
      | none => (doc, r)
  | none =>
      match findParentBlock doc cac with
      | some bp =>
          let li := DNode.elem "LI" (childrenOf (nodeAtD doc bp))
          let list := DNode.elem (upStr listType) [li]
          let doc1 := replaceNodeAt doc bp list
          (doc1, collapseEnd doc1 (bp ++ [0]))
      | none =>
          let str := rangeToString doc r
          let li := DNode.elem "LI"
            (if str = "" then [DNode.elem "BR" []] else [DNode.text str])
          let list := DNode.elem (upStr listType) [li]
          let res := replaceRangeN doc r [list]
          (res.1, collapseEnd res.1 (res.2 ++ [0]))

/-- Keys of the source's `formatActions` table. -/
inductive ToolbarAction where
  | bold | italic | underline | strikethrough
  | h1 | h2 | h3 | blockquote | ul | ol
deriving Repr, DecidableEq

/-- Source `formatActions`: the toolbar dispatch table binding each action
to its formatting operation and tag. -/
def formatActions : ToolbarAction → DNode → SelRange → DNode × SelRange
  | .bold => applyInlineStyle "strong"
  | .italic => applyInlineStyle "em"
  | .underline => applyInlineStyle "u"
  | .strikethrough => applyInlineStyle "s"
  | .h1 => applyBlockFormat "h1"
  | .h2 => applyBlockFormat "h2"
  | .h3 => applyBlockFormat "h3"
  | .blockquote => applyBlockFormat "blockquote"
  | .ul => toggleList "ul"
  | .ol => toggleList "ol"

/-- Inline style tags produced by the engine (spec `StyleKind`). -/
def inlineTags : List String := ["STRONG", "EM", "U", "S"]

mutual

/-- Valid inline content per the spec's data model: a nonempty text node,
a `BR` placeholder, or a styled element with valid inline children. -/
def validInline : DNode → Bool
  | .text s => decide (s ≠ "")
  | .elem t cs => (t == "BR" && cs.isEmpty) || (inlineTags.contains t && validInlineList cs)

/-- Valid inline content, lifted to sibling lists. -/
def validInlineList : List DNode → Bool
  | [] => true
  | c :: cs => validInline c && validInlineList cs

end

/-- Valid list item: an `LI` element with inline content. -/
def validListItem : DNode → Bool
  | .elem t cs => t == "LI" && validInlineList cs
  | .text _ => false

/-- Valid list children: exclusively `ListItem` blocks (spec invariant). -/
def validListItems : List DNode → Bool
  | [] => true
  | c :: cs => validListItem c && validListItems cs

/-- Valid top-level node: a single-level list with `LI` children only, or a
non-`LI` block element with inline content. -/
def validTopNode : DNode → Bool
  | .elem t cs =>
      if t == "UL" || t == "OL" then validListItems cs
      else blockTags.contains t && t != "LI" && validInlineList cs
  | .text _ => false

/-- Valid top-level sibling list. -/
def validTopList : List DNode → Bool
  | [] => true
  | c :: cs => validTopNode c && validTopList cs

/-- Document validity per the spec's structural invariants (section 3):
the root holds only blocks and lists, inline nodes never sit directly
under the root, list children are exclusively `ListItem` blocks, and lists
are single-level (nested lists are out of the engine's scope). -/
def validDocB : DNode → Bool
  | .elem t cs => t == "BODY" && validTopList cs
  | .text _ => false

mutual

/-- Whether an element with the given tag occurs in the node's subtree. -/
def containsTag : DNode → String → Bool
  | .text _, _ => false
  | .elem t cs, tg => t == tg || containsTagList cs tg

/-- Whether an element with the given tag occurs under any of the nodes. -/
def containsTagList : List DNode → String → Bool
  | [], _ => false
  | c :: cs, tg => containsTag c tg || containsTagList cs tg

end

/-- One step of `normalize()` on a sibling list: prepend an
already-normalized node to an already-normalized tail, dropping an empty
text node and merging a text node into a leading text sibling. -/
def normCons : DNode → List DNode → List DNode
  | .text s, L =>
      if s = "" then L
      else
        match L with
        | .text s2 :: r2 => .text (s ++ s2) :: r2
        | other => .text s :: other
  | e, L => e :: L

mutual

/-- DOM `normalize()`: drop empty text nodes and merge runs of adjacent
text nodes throughout the subtree (the "text-node merge normalization"
modulo which structural equality is compared). -/
def normalizeNode : DNode → DNode
  | .text s => .text s
  | .elem t cs => .elem t (normList cs)

/-- `normalize()` on a sibling list. -/
def normList : List DNode → List DNode
  | [] => []
  | c :: rest => normCons (normalizeNode c) (normList rest)

end

/-! Basic lemmas about flattened text, paths and list surgery. -/

theorem listChars_append (a b : List DNode) :
    listChars (a ++ b) = listChars a ++ listChars b := by
  induction a with
  | nil => simp [listChars]
  | cons x xs ih => simp [listChars, ih]

theorem listChars_take_drop (cs : List DNode) (k : Nat) :
    listChars cs = listChars (cs.take k) ++ listChars (cs.drop k) := by
  conv_lhs => rw [← List.take_append_drop k cs]
  rw [listChars_append]

theorem get?_middle {α : Type} (A : List α) (x : α) (B : List α) :
    (A ++ x :: B).get? A.length = some x := by
  induction A with
  | nil => rfl
  | cons a as ih => simpa using ih

theorem getD_middle (A : List DNode) (x : DNode) (B : List DNode) :
    (A ++ x :: B).getD A.length default = x := by
  induction A with
  | nil => rfl
  | cons a as ih => simpa using ih

theorem set_middle {α : Type} (A : List α) (x y : α) (B : List α) :
    (A ++ x :: B).set A.length y = A ++ y :: B := by
  induction A with
  | nil => rfl
  | cons a as ih => simp [List.set, ih]

theorem getNode?_middle (t : String) (A : List DNode) (x : DNode)
    (B : List DNode) (p : List Nat) :
    getNode? (.elem t (A ++ x :: B)) (A.length :: p) = getNode? x p := by
  show (match (A ++ x :: B).get? A.length with
    | some c => getNode? c p
    | none => none) = getNode? x p
  rw [get?_middle]

theorem commonAncPath_self (p : List Nat) : commonAncPath p p = p := by
  induction p with
  | nil => rfl
  | cons i q ih => simp [commonAncPath, ih]

theorem ancestorsDesc_one (a : Nat) : ancestorsDesc [a] = [[a]] := rfl

theorem ancestorsDesc_two (a b : Nat) : ancestorsDesc [a, b] = [[a, b], [a]] := rfl

theorem ancestorsDesc_three (a b c : Nat) :
    ancestorsDesc [a, b, c] = [[a, b, c], [a, b], [a]] := rfl

theorem getD_of_get? {α : Type} [Inhabited α] {cs : List α} {i : Nat} {c : α}
    (h : cs.get? i = some c) : cs.getD i default = c := by
  induction cs generalizing i with
  | nil => cases h
  | cons a l ih =>
    cases i with
    | zero => cases h; rfl
    | succ n => exact ih h

theorem get?_set_self {α : Type} (cs : List α) (i : Nat) (x : α)
    (h : i < cs.length) : (cs.set i x).get? i = some x := by
  induction cs generalizing i with
  | nil => simp at h
  | cons a l ih =>
    cases i with
    | zero => rfl
    | succ n => exact ih n (Nat.lt_of_succ_lt_succ h)

theorem get?_lt_length {α : Type} {cs : List α} {i : Nat} {c : α}
    (h : cs.get? i = some c) : i < cs.length := by
  induction cs generalizing i with
  | nil => cases h
  | cons a l ih =>
    cases i with
    | zero => simp
    | succ n => exact Nat.succ_lt_succ (ih h)

theorem getNode?_replaceNodeAt_self (bp : List Nat) (doc : DNode) (old new : DNode)
    (hne : bp ≠ []) (h : getNode? doc bp = some old) :
    getNode? (replaceNodeAt doc bp new) bp = some new := by
  induction bp generalizing doc old with
  | nil => exact absurd rfl hne
  | cons i p ih =>
    cases doc with
    | text s => simp [getNode?] at h
    | elem t cs =>
      rw [getNode?] at h
      cases hc : cs.get? i with
      | none => rw [hc] at h; cases h
      | some c =>
        rw [hc] at h
        have hlen : i < cs.length := get?_lt_length hc
        cases p with
        | nil =>
          show getNode? (.elem t (cs.set i new)) [i] = some new
          simp only [getNode?, get?_set_self cs i new hlen]
        | cons j q =>
          show getNode? (.elem t (cs.set i
            (replaceNodeAt (cs.getD i default) (j :: q) new))) (i :: j :: q) = some new
          rw [getD_of_get? hc, getNode?,
            get?_set_self cs i (replaceNodeAt c (j :: q) new) hlen]
          exact ih c old (by simp) h

theorem replaceNodeAt_replace (bp : List Nat) (doc : DNode) (old x y : DNode)
    (h : getNode? doc bp = some old) :
    replaceNodeAt (replaceNodeAt doc bp x) bp y = replaceNodeAt doc bp y := by
  induction bp generalizing doc old with
  | nil => cases doc <;> rfl
  | cons i p ih =>
    cases doc with
    | text s => rfl
    | elem t cs =>
      rw [getNode?] at h
      cases hc : cs.get? i with
      | none => rw [hc] at h; cases h
      | some c =>
        rw [hc] at h
        have hlen : i < cs.length := get?_lt_length hc
        cases p with
        | nil =>
          show DNode.elem t ((cs.set i x).set i y) = .elem t (cs.set i y)
          rw [List.set_set]
        | cons j q =>
          show DNode.elem t ((cs.set i (replaceNodeAt (cs.getD i default) (j :: q) x)).set i
              (replaceNodeAt (((cs.set i (replaceNodeAt (cs.getD i default) (j :: q) x)).getD i
                default)) (j :: q) y))
            = .elem t (cs.set i (replaceNodeAt (cs.getD i default) (j :: q) y))
          rw [getD_of_get? hc,
            getD_of_get? (get?_set_self cs i (replaceNodeAt c (j :: q) x) hlen),
            ih c old h, List.set_set]

theorem ancestorsDesc_ne_nil {p q : List Nat} (h : q ∈ ancestorsDesc p) : q ≠ [] := by
  unfold ancestorsDesc at h
  obtain ⟨k, hk, rfl⟩ := List.mem_map.mp h
  have hk' : k < p.length := List.mem_range.mp (List.mem_reverse.mp hk)
  intro hnil
  rcases List.take_eq_nil_iff.mp hnil with h1 | h1
  · cases h1
  · rw [h1] at hk'; simp at hk'

theorem ancestorsDesc_head (p : List Nat) (h : p ≠ []) :
    ∃ rest, ancestorsDesc p = p :: rest := by
  cases hl : p.length with
  | zero => exact absurd (List.length_eq_zero.mp hl) h
  | succ m =>
    refine ⟨((List.range m).reverse).map (fun k => p.take (k + 1)), ?_⟩
    unfold ancestorsDesc
    rw [hl, List.range_succ, List.reverse_append]
    simp only [List.reverse_singleton, List.singleton_append, List.map_cons]
    congr 1
    rw [List.take_of_length_le (by rw [hl])]

theorem findParentBlock_props {doc : DNode} {p bp : List Nat}
    (h : findParentBlock doc p = some bp) :
    bp ≠ [] ∧ isBlockAt doc bp = true := by
  unfold findParentBlock at h
  exact ⟨ancestorsDesc_ne_nil (List.mem_of_find?_eq_some h), List.find?_some h⟩

theorem findParentBlock_self (doc : DNode) (p : List Nat) (bt : String)
    (bcs : List DNode) (h : getNode? doc p = some (.elem bt bcs))
    (hb : blockTags.contains bt = true) (hne : p ≠ []) :
    findParentBlock doc p = some p := by
  obtain ⟨rest, hrest⟩ := ancestorsDesc_head p hne
  simp only [findParentBlock, h]
  rw [hrest]
  exact List.find?_cons_of_pos rest
    (by simp only [isBlockAt, h, isBlockElement]; exact hb)

theorem collapseEnd_of_getNode (doc : DNode) (p : List Nat) (n : DNode)
    (h : getNode? doc p = some n) :
    collapseEnd doc p = ⟨⟨p, contentLen n⟩, ⟨p, contentLen n⟩⟩ := by
  simp [collapseEnd, nodeAtD, h]

theorem applyBlockFormat_block (k : String) (doc : DNode) (r : SelRange)
    (bp : List Nat) (btag : String) (bcs : List DNode)
    (hfind : findParentBlock doc (cacPath r) = some bp)
    (hnode : getNode? doc bp = some (.elem btag bcs)) :
    applyBlockFormat k doc r
      = (replaceNodeAt doc bp (.elem (if btag = upStr k then "P" else upStr k) bcs),
        collapseEnd
          (replaceNodeAt doc bp (.elem (if btag = upStr k then "P" else upStr k) bcs)) bp) := by
  simp [applyBlockFormat, hfind, nodeAtD, hnode]

theorem cacPath_collapseEnd (doc : DNode) (p : List Nat) :
    cacPath (collapseEnd doc p) = p := by
  simp [collapseEnd, cacPath, commonAncPath_self]

theorem gOffList_nil (cs : List DNode) (off : Nat) :
    gOffList cs [] off = (listChars (cs.take off)).length := rfl

theorem gOffList_cons (cs : List DNode) (i : Nat) (p : List Nat) (off : Nat) :
    gOffList cs (i :: p) off
      = (listChars (cs.take i)).length +
        (match cs.getD i default with
          | .text _ => off
          | .elem _ ccs => gOffList ccs p off) := rfl

theorem drop_middle {α : Type} (A : List α) (x : α) (B : List α) :
    (A ++ x :: B).drop (A.length + 1) = B := by
  induction A with
  | nil => rfl
  | cons a l ih => simp [ih]

theorem slice_of_decomp (l P M S : List Char) (h : l = P ++ M ++ S)
    (gs ge : Nat) (hgs : gs = P.length) (hge : ge = P.length + M.length) :
    (l.drop gs).take (ge - gs) = M := by
  subst h hgs hge
  rw [List.append_assoc, List.drop_left, Nat.add_sub_cancel_left, List.take_left]

theorem findIdx?_middle {α : Type} (pred : α → Bool) (A B : List α) (x : α)
    (hA : ∀ c ∈ A, pred c = false) (hx : pred x = true) :
    (A ++ x :: B).findIdx? pred = some A.length := by
  induction A with
  | nil => simp [List.findIdx?_cons, hx]
  | cons a l ih =>
    have ha : pred a = false := hA a (by simp)
    have hl : ∀ c ∈ l, pred c = false := fun c hc => hA c (by simp [hc])
    simp [List.findIdx?_cons, ha, List.findIdx?_succ, ih hl]

/-! Character-offset infrastructure: the flattened text of extracted and
replaced ranges is the corresponding slice of the document's flattened
text, computed through the global offsets of the boundary points. -/

theorem listChars_cons (c : DNode) (cs : List DNode) :
    listChars (c :: cs) = nodeChars c ++ listChars cs := rfl

theorem string_mk_data (l : List Char) : (String.mk l).data = l := rfl

theorem listChars_nil : listChars ([] : List DNode) = [] := rfl

theorem drop_of_get? : ∀ {cs : List DNode} {i : Nat} {c : DNode},
    cs.get? i = some c → cs.drop i = c :: cs.drop (i + 1) := by
  intro cs
  induction cs with
  | nil => intro i c h; exact Option.noConfusion h
  | cons a cs ih =>
    intro i c h
    cases i with
    | zero =>
        have hac : a = c := by simpa using h
        show a :: cs = c :: cs
        rw [hac]
    | succ n =>
        show cs.drop n = c :: cs.drop (n + 1)
        exact ih (by simpa using h)

theorem chars_split_at {cs : List DNode} {i : Nat} {c : DNode}
    (h : cs.get? i = some c) :
    listChars cs = listChars (cs.take i) ++ (nodeChars c ++ listChars (cs.drop (i + 1))) := by
  have h1 : cs.drop i = c :: cs.drop (i + 1) := by
    rw [drop_of_get? h]
  conv_lhs => rw [listChars_take_drop cs i]
  rw [h1, listChars_cons]

theorem take_succ_of_get? {cs : List DNode} {i : Nat} {c : DNode}
    (h : cs.get? i = some c) : cs.take (i + 1) = cs.take i ++ [c] := by
  rw [List.take_succ]
  congr 1
  rw [← List.get?_eq_getElem?, h]
  rfl

theorem valid_step {cs : List DNode} {i : Nat} {p : List Nat} {off : Nat}
    (h : validPosList cs (i :: p) off = true) :
    ∃ c, cs.get? i = some c ∧ validPosNode c p off = true := by
  unfold validPosList at h
  cases hc : cs.get? i with
  | none => rw [hc] at h; exact absurd h (by cases p <;> simp)
  | some c =>
    rw [hc] at h
    refine ⟨c, rfl, ?_⟩
    cases c with
    | text s => cases p with
      | nil => exact h
      | cons j q => exact absurd h (by simp)
    | elem tg ccs => exact h

theorem gOffList_cons_get {cs : List DNode} {i : Nat} {c : DNode}
    (p : List Nat) (off : Nat) (h : cs.get? i = some c) :
    gOffList cs (i :: p) off = (listChars (cs.take i)).length + gOffNode c p off := by
  rw [gOffList_cons, getD_of_get? h]
  cases c <;> rfl

theorem chars_take_mono (cs : List DNode) {o1 o2 : Nat} (h : o1 ≤ o2) :
    (listChars (cs.take o1)).length ≤ (listChars (cs.take o2)).length := by
  have : cs.take o2 = cs.take o1 ++ (cs.drop o1).take (o2 - o1) := by
    rw [← List.take_add]
    congr 1
    omega
  rw [this, listChars_append, List.length_append]
  omega

theorem gOffList_le (p : List Nat) : ∀ (cs : List DNode) (off : Nat),
    validPosList cs p off = true → gOffList cs p off ≤ (listChars cs).length := by
  induction p with
  | nil =>
    intro cs off h
    rw [gOffList_nil]
    calc (listChars (cs.take off)).length
        ≤ (listChars (cs.take cs.length)).length :=
          chars_take_mono cs (by simpa [validPosList] using h)
      _ = (listChars cs).length := by rw [List.take_of_length_le (le_refl _)]
  | cons i rest ih =>
    intro cs off h
    obtain ⟨c, hc, hv⟩ := valid_step h
    rw [gOffList_cons_get rest off hc, chars_split_at hc]
    have hle : gOffNode c rest off ≤ (nodeChars c).length := by
      cases c with
      | text s =>
        cases rest with
        | nil => exact of_decide_eq_true hv
        | cons j q => exact absurd hv (by simp [validPosNode])
      | elem tg ccs => exact ih ccs off hv
    simp [List.length_append]
    omega

theorem gOffNode_le {n : DNode} {p : List Nat} {off : Nat}
    (h : validPosNode n p off = true) :
    gOffNode n p off ≤ (nodeChars n).length := by
  cases n with
  | text s =>
    cases p with
    | nil => exact of_decide_eq_true h
    | cons j q => exact absurd h (by simp [validPosNode])
  | elem tg cs => exact gOffList_le p cs off h

theorem gOffList_mono (sp : List Nat) : ∀ (cs : List DNode) (so : Nat)
    (ep : List Nat) (eo : Nat),
    validPosList cs sp so = true → validPosList cs ep eo = true →
    bpLE sp so ep eo = true →
    gOffList cs sp so ≤ gOffList cs ep eo := by
  induction sp with
  | nil =>
    intro cs so ep eo hs he hle
    cases ep with
    | nil =>
      rw [gOffList_nil, gOffList_nil]
      exact chars_take_mono cs (by simpa [bpLE] using hle)
    | cons j q =>
      obtain ⟨c, hc, hv⟩ := valid_step he
      rw [gOffList_nil, gOffList_cons_get q eo hc]
      have : so ≤ j := by simpa [bpLE] using hle
      calc (listChars (cs.take so)).length
          ≤ (listChars (cs.take j)).length := chars_take_mono cs this
        _ ≤ _ := Nat.le_add_right _ _
  | cons i p ih =>
    intro cs so ep eo hs he hle
    obtain ⟨c, hc, hv⟩ := valid_step hs
    cases ep with
    | nil =>
      rw [gOffList_cons_get p so hc, gOffList_nil]
      have hio : i < eo := by simpa [bpLE] using hle
      calc (listChars (cs.take i)).length + gOffNode c p so
          ≤ (listChars (cs.take i)).length + (nodeChars c).length :=
            Nat.add_le_add_left (gOffNode_le hv) _
        _ = (listChars (cs.take (i + 1))).length := by
            rw [take_succ_of_get? hc, listChars_append, List.length_append,
              listChars_cons, listChars_nil, List.append_nil]
        _ ≤ (listChars (cs.take eo)).length := chars_take_mono cs hio
    | cons j q =>
      rw [gOffList_cons_get p so hc]
      rcases (by simpa [bpLE] using hle :
          i < j ∨ i = j ∧ bpLE p so q eo = true) with hij | ⟨rfl, hrest⟩
      · obtain ⟨c2, hc2, hv2⟩ := valid_step he
        rw [gOffList_cons_get q eo hc2]
        calc (listChars (cs.take i)).length + gOffNode c p so
            ≤ (listChars (cs.take i)).length + (nodeChars c).length :=
              Nat.add_le_add_left (gOffNode_le hv) _
          _ = (listChars (cs.take (i + 1))).length := by
              rw [take_succ_of_get? hc, listChars_append, List.length_append,
                listChars_cons]
              simp [listChars]
          _ ≤ (listChars (cs.take j)).length := chars_take_mono cs hij
          _ ≤ _ := Nat.le_add_right _ _
      · obtain ⟨c2, hc2, hv2⟩ := valid_step he
        rw [gOffList_cons_get q eo hc2]
        have hcc : c2 = c := by rw [hc] at hc2; exact (Option.some_injective _ hc2).symm
        subst hcc
        refine Nat.add_le_add_left ?_ _
        cases c2 with
        | text s =>
          cases p with
          | nil =>
            cases q with
            | nil => simpa [gOffNode, bpLE] using hrest
            | cons _ _ => exact absurd hv2 (by simp [validPosNode])
          | cons _ _ => exact absurd hv (by simp [validPosNode])
        | elem tg ccs => exact ih ccs so q eo hv hv2 hrest

theorem dropEmptyText_chars (t : List Char) :
    listChars (if t.isEmpty then [] else [DNode.text (String.mk t)]) = t := by
  by_cases h : t.isEmpty
  · rw [if_pos h, listChars_nil, (List.isEmpty_iff.mp h)]
  · rw [if_neg h, listChars_cons, listChars_nil, List.append_nil]
    rfl

theorem extAfter_chars (p : List Nat) : ∀ (n : DNode) (off : Nat),
    validPosNode n p off = true →
    listChars (extAfter n p off) = (nodeChars n).drop (gOffNode n p off) := by
  induction p with
  | nil =>
    intro n off hv
    cases n with
    | text s => exact dropEmptyText_chars _
    | elem tg cs =>
      show listChars [DNode.elem tg (cs.drop off)] = _
      rw [listChars_cons, listChars_nil, List.append_nil]
      show listChars (cs.drop off) = (listChars cs).drop (listChars (cs.take off)).length
      conv_rhs => rw [listChars_take_drop cs off]
      rw [List.drop_left]
  | cons i rest ih =>
    intro n off hv
    cases n with
    | text s => exact absurd hv (by simp [validPosNode])
    | elem tg cs =>
      obtain ⟨c, hc, hvc⟩ := valid_step hv
      show listChars [DNode.elem tg (extAfter (cs.getD i default) rest off ++ cs.drop (i + 1))]
        = (listChars cs).drop (gOffList cs (i :: rest) off)
      rw [listChars_cons, listChars_nil, List.append_nil]
      show listChars (extAfter (cs.getD i default) rest off ++ cs.drop (i + 1)) = _
      rw [getD_of_get? hc, listChars_append, ih c off hvc,
        gOffList_cons_get rest off hc, chars_split_at hc, List.drop_append,
        List.drop_append_of_le_length (gOffNode_le hvc)]

theorem extBefore_chars (p : List Nat) : ∀ (n : DNode) (off : Nat),
    validPosNode n p off = true →
    listChars (extBefore n p off) = (nodeChars n).take (gOffNode n p off) := by
  induction p with
  | nil =>
    intro n off hv
    cases n with
    | text s => exact dropEmptyText_chars _
    | elem tg cs =>
      show listChars [DNode.elem tg (cs.take off)] = _
      rw [listChars_cons, listChars_nil, List.append_nil]
      show listChars (cs.take off) = (listChars cs).take (listChars (cs.take off)).length
      conv_rhs => rw [listChars_take_drop cs off]
      rw [List.take_left]
  | cons i rest ih =>
    intro n off hv
    cases n with
    | text s => exact absurd hv (by simp [validPosNode])
    | elem tg cs =>
      obtain ⟨c, hc, hvc⟩ := valid_step hv
      show listChars [DNode.elem tg (cs.take i ++ extBefore (cs.getD i default) rest off)]
        = (listChars cs).take (gOffList cs (i :: rest) off)
      rw [listChars_cons, listChars_nil, List.append_nil]
      show listChars (cs.take i ++ extBefore (cs.getD i default) rest off) = _
      rw [getD_of_get? hc, listChars_append, ih c off hvc,
        gOffList_cons_get rest off hc, chars_split_at hc, List.take_append,
        List.take_append_of_le_length (gOffNode_le hvc)]

theorem delBefore_chars (p : List Nat) : ∀ (n : DNode) (off : Nat),
    validPosNode n p off = true →
    listChars (delBefore n p off) = (nodeChars n).drop (gOffNode n p off) := by
  induction p with
  | nil =>
    intro n off hv
    cases n with
    | text s => exact dropEmptyText_chars _
    | elem tg cs =>
      show listChars [DNode.elem tg (cs.drop off)] = _
      rw [listChars_cons, listChars_nil, List.append_nil]
      show listChars (cs.drop off) = (listChars cs).drop (listChars (cs.take off)).length
      conv_rhs => rw [listChars_take_drop cs off]
      rw [List.drop_left]
  | cons i rest ih =>
    intro n off hv
    cases n with
    | text s => exact absurd hv (by simp [validPosNode])
    | elem tg cs =>
      obtain ⟨c, hc, hvc⟩ := valid_step hv
      show listChars [DNode.elem tg (delBefore (cs.getD i default) rest off ++ cs.drop (i + 1))]
        = (listChars cs).drop (gOffList cs (i :: rest) off)
      rw [listChars_cons, listChars_nil, List.append_nil]
      show listChars (delBefore (cs.getD i default) rest off ++ cs.drop (i + 1)) = _
      rw [getD_of_get? hc, listChars_append, ih c off hvc,
        gOffList_cons_get rest off hc, chars_split_at hc, List.drop_append,
        List.drop_append_of_le_length (gOffNode_le hvc)]

theorem delAfter_chars (p : List Nat) : ∀ (n : DNode) (off : Nat),
    validPosNode n p off = true →
    listChars (delAfter n p off) = (nodeChars n).take (gOffNode n p off) := by
  induction p with
  | nil =>
    intro n off hv
    cases n with
    | text s => exact dropEmptyText_chars _
    | elem tg cs =>
      show listChars [DNode.elem tg (cs.take off)] = _
      rw [listChars_cons, listChars_nil, List.append_nil]
      show listChars (cs.take off) = (listChars cs).take (listChars (cs.take off)).length
      conv_rhs => rw [listChars_take_drop cs off]
      rw [List.take_left]
  | cons i rest ih =>
    intro n off hv
    cases n with
    | text s => exact absurd hv (by simp [validPosNode])
    | elem tg cs =>
      obtain ⟨c, hc, hvc⟩ := valid_step hv
      show listChars [DNode.elem tg (cs.take i ++ delAfter (cs.getD i default) rest off)]
        = (listChars cs).take (gOffList cs (i :: rest) off)
      rw [listChars_cons, listChars_nil, List.append_nil]
      show listChars (cs.take i ++ delAfter (cs.getD i default) rest off) = _
      rw [getD_of_get? hc, listChars_append, ih c off hvc,
        gOffList_cons_get rest off hc, chars_split_at hc, List.take_append,
        List.take_append_of_le_length (gOffNode_le hvc)]

theorem drop_take_chain (A M S : List Char) (g k : Nat) (hg : g ≤ M.length) :
    ((A ++ (M ++ S)).drop (A.length + g)).take ((M.length - g) + k)
      = M.drop g ++ S.take k := by
  rw [List.drop_append, List.drop_append_of_le_length hg,
    show M.length - g = (M.drop g).length from (List.length_drop g M).symm,
    List.take_append]

theorem append_take_drop_mid {α : Type} (a : List α) (n : Nat) (X : List α) :
    a ++ X = a.take n ++ (a.drop n ++ X) := by
  rw [← List.append_assoc, List.take_append_drop]

theorem slice_eq_of_decomp {l P E S : List Char} {gs ge : Nat}
    (h : l = P ++ (E ++ S)) (hgs : P.length = gs) (hge : P.length + E.length = ge) :
    (l.drop gs).take (ge - gs) = E := by
  subst h
  subst hgs
  subst hge
  rw [List.drop_left, Nat.add_sub_cancel_left, List.take_left]

theorem range_chars_decomp (sp : List Nat) : ∀ (cs : List DNode) (so : Nat)
    (ep : List Nat) (eo : Nat) (new : List DNode),
    validPosList cs sp so = true → validPosList cs ep eo = true →
    bpLE sp so ep eo = true →
    ∃ P S : List Char,
      listChars cs = P ++ (listChars (extRangeList cs sp so ep eo) ++ S)
      ∧ P.length = gOffList cs sp so
      ∧ P.length + (listChars (extRangeList cs sp so ep eo)).length = gOffList cs ep eo
      ∧ listChars ((replRangeListN cs sp so ep eo new).1)
          = P ++ (listChars new ++ S) := by
  induction sp with
  | nil =>
    intro cs so ep eo new hs he hle
    cases ep with
    | nil =>
      have hso_eo : so ≤ eo := by simpa [bpLE] using hle
      have heol : eo ≤ cs.length := by simpa [validPosList] using he
      have htakeo : cs.take eo = cs.take so ++ (cs.drop so).take (eo - so) := by
        rw [← List.take_add]
        congr 1
        omega
      have hdropso : cs.drop so
          = (cs.drop so).take (eo - so) ++ cs.drop eo := by
        conv_lhs => rw [← List.take_append_drop (eo - so) (cs.drop so)]
        rw [List.drop_drop]
        congr 2
        omega
      refine ⟨listChars (cs.take so), listChars (cs.drop eo), ?_, rfl, ?_, ?_⟩
      · show listChars cs = _ ++ (listChars ((cs.drop so).take (eo - so)) ++ _)
        conv_lhs => rw [listChars_take_drop cs so, hdropso, listChars_append]
      · show _ + (listChars ((cs.drop so).take (eo - so))).length
          = (listChars (cs.take eo)).length
        rw [htakeo, listChars_append, List.length_append]
      · show listChars (cs.take so ++ new ++ cs.drop eo) = _
        rw [listChars_append, listChars_append, List.append_assoc]
    | cons j q =>
      obtain ⟨c2, hc2, hv2⟩ := valid_step he
      have hso_j : so ≤ j := by simpa [bpLE] using hle
      have htakej : cs.take j = cs.take so ++ (cs.drop so).take (j - so) := by
        rw [← List.take_add]
        congr 1
        omega
      have hdropso : cs.drop so
          = (cs.drop so).take (j - so) ++ cs.drop j := by
        conv_lhs => rw [← List.take_append_drop (j - so) (cs.drop so)]
        rw [List.drop_drop]
        congr 2
        omega
      have hdropj : cs.drop j = c2 :: cs.drop (j + 1) := by
        rw [drop_of_get? hc2]
      have hg2le := gOffNode_le hv2
      refine ⟨listChars (cs.take so),
        (nodeChars c2).drop (gOffNode c2 q eo) ++ listChars (cs.drop (j + 1)),
        ?_, rfl, ?_, ?_⟩
      · show listChars cs = _ ++ (listChars ((cs.drop so).take (j - so)
          ++ extBefore (cs.getD j default) q eo) ++ _)
        rw [getD_of_get? hc2, listChars_append, extBefore_chars q c2 eo hv2]
        conv_lhs => rw [listChars_take_drop cs so, hdropso, hdropj,
          listChars_append, listChars_cons]
        simp [List.append_assoc]
        exact append_take_drop_mid (nodeChars c2) (gOffNode c2 q eo) _
      · show _ + (listChars ((cs.drop so).take (j - so)
            ++ extBefore (cs.getD j default) q eo)).length
          = gOffList cs (j :: q) eo
        rw [getD_of_get? hc2, listChars_append, extBefore_chars q c2 eo hv2,
          gOffList_cons_get q eo hc2, htakej, listChars_append]
        simp [List.length_append, List.length_take]
        omega
      · show listChars (cs.take so ++ new ++ delBefore (cs.getD j default) q eo
          ++ cs.drop (j + 1)) = _
        rw [getD_of_get? hc2, listChars_append, listChars_append, listChars_append,
          delBefore_chars q c2 eo hv2]
        simp [List.append_assoc]
  | cons i p ih =>
    intro cs so ep eo new hs he hle
    obtain ⟨c, hc, hvc⟩ := valid_step hs
    have hg1le := gOffNode_le hvc
    cases ep with
    | nil =>
      have hieo : i < eo := by simpa [bpLE] using hle
      have heol : eo ≤ cs.length := by simpa [validPosList] using he
      have htakeo : cs.take eo
          = cs.take (i + 1) ++ (cs.drop (i + 1)).take (eo - i - 1) := by
        rw [← List.take_add]
        congr 1
        omega
      have hdropi : cs.drop (i + 1)
          = (cs.drop (i + 1)).take (eo - i - 1) ++ cs.drop eo := by
        conv_lhs => rw [← List.take_append_drop (eo - i - 1) (cs.drop (i + 1))]
        rw [List.drop_drop]
        congr 2
        omega
      refine ⟨listChars (cs.take i) ++ (nodeChars c).take (gOffNode c p so),
        listChars (cs.drop eo), ?_, ?_, ?_, ?_⟩
      · show listChars cs = _ ++ (listChars (extAfter (cs.getD i default) p so
          ++ (cs.drop (i + 1)).take (eo - i - 1)) ++ _)
        rw [getD_of_get? hc, listChars_append, extAfter_chars p c so hvc]
        conv_lhs => rw [chars_split_at hc, hdropi, listChars_append]
        simp [List.append_assoc]
        exact append_take_drop_mid (nodeChars c) (gOffNode c p so) _
      · rw [gOffList_cons_get p so hc, List.length_append, List.length_take]
        omega
      · show _ + (listChars (extAfter (cs.getD i default) p so
            ++ (cs.drop (i + 1)).take (eo - i - 1))).length
          = (listChars (cs.take eo)).length
        rw [getD_of_get? hc, listChars_append, extAfter_chars p c so hvc,
          htakeo, take_succ_of_get? hc, listChars_append, listChars_append,
          listChars_cons, listChars_nil]
        simp [List.length_append, List.length_take, List.length_drop]
        omega
      · show listChars (cs.take i ++ delAfter (cs.getD i default) p so ++ new
          ++ cs.drop eo) = _
        rw [getD_of_get? hc, listChars_append, listChars_append, listChars_append,
          delAfter_chars p c so hvc]
        simp [List.append_assoc]
    | cons j q =>
      by_cases hij : i = j
      · subst hij
        obtain ⟨c2, hc2, hv2⟩ := valid_step he
        have hcc : c2 = c := by rw [hc] at hc2; exact (Option.some_injective _ hc2).symm
        subst hcc
        have hrest : bpLE p so q eo = true := by
          rcases (by simpa [bpLE] using hle : i < i ∨ i = i ∧ bpLE p so q eo = true)
            with hlt | ⟨_, hr⟩
          · omega
          · exact hr
        cases c2 with
        | text s =>
          cases p with
          | cons _ _ => exact absurd hvc (by simp [validPosNode])
          | nil =>
            cases q with
            | cons _ _ => exact absurd hv2 (by simp [validPosNode])
            | nil =>
              have hso : so ≤ s.length := of_decide_eq_true hvc
              have heo : eo ≤ s.length := of_decide_eq_true hv2
              have hso_eo : so ≤ eo := by simpa [bpLE] using hrest
              have hsplit : s.data = s.data.take so
                  ++ ((s.data.drop so).take (eo - so) ++ s.data.drop eo) := by
                conv_lhs => rw [← List.take_append_drop so s.data]
                congr 1
                conv_lhs => rw [← List.take_append_drop (eo - so) (s.data.drop so)]
                rw [List.drop_drop]
                congr 2
                omega
              have hext : extRangeList cs (i :: []) so (i :: []) eo
                  = if ((s.data.take eo).drop so).isEmpty then []
                    else [DNode.text (String.mk ((s.data.take eo).drop so))] := by
                simp only [extRangeList, getD_of_get? hc, eq_self_iff_true, if_true]
              have hrepl : replRangeListN cs (i :: []) so (i :: []) eo new
                  = (cs.take i
                    ++ (if (s.data.take so).isEmpty then []
                        else [DNode.text (String.mk (s.data.take so))])
                    ++ new
                    ++ (if (s.data.drop eo).isEmpty then []
                        else [DNode.text (String.mk (s.data.drop eo))])
                    ++ cs.drop (i + 1),
                    [i + (if (s.data.take so).isEmpty then ([] : List DNode)
                        else [DNode.text (String.mk (s.data.take so))]).length]) := by
                simp only [replRangeListN, getD_of_get? hc, eq_self_iff_true, if_true]
              refine ⟨listChars (cs.take i) ++ s.data.take so,
                s.data.drop eo ++ listChars (cs.drop (i + 1)), ?_, ?_, ?_, ?_⟩
              · rw [hext, dropEmptyText_chars, List.drop_take]
                conv_lhs => rw [chars_split_at hc]
                show _ ++ (s.data ++ _) = _
                conv_lhs => rw [hsplit]
                simp [List.append_assoc]
              · rw [gOffList_cons_get [] so hc, List.length_append, List.length_take]
                have hsl : s.length = s.data.length := rfl
                have hg1 : gOffNode (DNode.text s) [] so = so := rfl
                omega
              · rw [hext, dropEmptyText_chars, List.drop_take,
                  gOffList_cons_get [] eo hc]
                have hsl : s.length = s.data.length := rfl
                have hg2 : gOffNode (DNode.text s) [] eo = eo := rfl
                simp only [List.length_append, List.length_take, List.length_drop]
                omega
              · rw [hrepl]
                show listChars (cs.take i
                  ++ (if (s.data.take so).isEmpty then []
                      else [DNode.text (String.mk (s.data.take so))])
                  ++ new
                  ++ (if (s.data.drop eo).isEmpty then []
                      else [DNode.text (String.mk (s.data.drop eo))])
                  ++ cs.drop (i + 1)) = _
                rw [listChars_append, listChars_append, listChars_append,
                  listChars_append, dropEmptyText_chars, dropEmptyText_chars]
                simp [List.append_assoc]
        | elem tg ccs =>
          obtain ⟨P2, S2, hsplit2, hP2, hE2, hrepl2⟩ := ih ccs so q eo new hvc hv2 hrest
          have hext : extRangeList cs (i :: p) so (i :: q) eo
              = extRangeList ccs p so q eo := by
            simp only [extRangeList, getD_of_get? hc, eq_self_iff_true, if_true]
          have hrepl : replRangeListN cs (i :: p) so (i :: q) eo new
              = (cs.take i
                  ++ [DNode.elem tg (replRangeListN ccs p so q eo new).1]
                  ++ cs.drop (i + 1),
                i :: (replRangeListN ccs p so q eo new).2) := by
            simp only [replRangeListN, getD_of_get? hc, eq_self_iff_true, if_true]
          refine ⟨listChars (cs.take i) ++ P2, S2 ++ listChars (cs.drop (i + 1)),
            ?_, ?_, ?_, ?_⟩
          · rw [hext]
            conv_lhs => rw [chars_split_at hc]
            show _ ++ (listChars ccs ++ _) = _
            rw [hsplit2]
            simp [List.append_assoc]
          · rw [gOffList_cons_get p so hc, List.length_append, hP2]
            rfl
          · rw [hext, gOffList_cons_get q eo hc, List.length_append]
            show _ + _ + _ = _ + gOffList ccs q eo
            omega
          · rw [hrepl]
            show listChars (cs.take i
              ++ [DNode.elem tg (replRangeListN ccs p so q eo new).1]
              ++ cs.drop (i + 1)) = _
            rw [listChars_append, listChars_append, listChars_cons, listChars_nil,
              List.append_nil]
            have hnc2 : nodeChars (DNode.elem tg (replRangeListN ccs p so q eo new).1)
                = P2 ++ (listChars new ++ S2) := hrepl2
            rw [hnc2]
            simp [List.append_assoc]
      · obtain ⟨c2, hc2, hv2⟩ := valid_step he
        have hg2le := gOffNode_le hv2
        have hij2 : i < j := by
          rcases (by simpa [bpLE] using hle : i < j ∨ i = j ∧ bpLE p so q eo = true)
            with hlt | ⟨heq, _⟩
          · exact hlt
          · exact absurd heq hij
        have htakej : cs.take j
            = cs.take (i + 1) ++ (cs.drop (i + 1)).take (j - i - 1) := by
          rw [← List.take_add]
          congr 1
          omega
        have hdropi : cs.drop (i + 1)
            = (cs.drop (i + 1)).take (j - i - 1) ++ cs.drop j := by
          conv_lhs => rw [← List.take_append_drop (j - i - 1) (cs.drop (i + 1))]
          rw [List.drop_drop]
          congr 2
          omega
        have hdropj : cs.drop j = c2 :: cs.drop (j + 1) := by
          rw [drop_of_get? hc2]
        have hext : extRangeList cs (i :: p) so (j :: q) eo
            = extAfter (cs.getD i default) p so
              ++ ((cs.drop (i + 1)).take (j - i - 1))
              ++ extBefore (cs.getD j default) q eo := by
          simp only [extRangeList, if_neg hij]
        have hrepl : replRangeListN cs (i :: p) so (j :: q) eo new
            = (cs.take i ++ delAfter (cs.getD i default) p so ++ new
                ++ delBefore (cs.getD j default) q eo ++ cs.drop (j + 1),
              [i + (delAfter (cs.getD i default) p so).length]) := by
          simp only [replRangeListN, if_neg hij]
        refine ⟨listChars (cs.take i) ++ (nodeChars c).take (gOffNode c p so),
          (nodeChars c2).drop (gOffNode c2 q eo) ++ listChars (cs.drop (j + 1)),
          ?_, ?_, ?_, ?_⟩
        · rw [hext, getD_of_get? hc, getD_of_get? hc2, listChars_append,
            listChars_append, extAfter_chars p c so hvc, extBefore_chars q c2 eo hv2]
          conv_lhs => rw [chars_split_at hc, hdropi, hdropj, listChars_append,
            listChars_cons]
          simp [List.append_assoc]
          rw [← append_take_drop_mid (nodeChars c2) (gOffNode c2 q eo)
            (listChars (cs.drop (j + 1)))]
          exact append_take_drop_mid (nodeChars c) (gOffNode c p so) _
        · rw [gOffList_cons_get p so hc, List.length_append, List.length_take]
          omega
        · rw [hext, getD_of_get? hc, getD_of_get? hc2, listChars_append,
            listChars_append, extAfter_chars p c so hvc, extBefore_chars q c2 eo hv2,
            gOffList_cons_get q eo hc2, htakej, take_succ_of_get? hc,
            listChars_append, listChars_append, listChars_cons, listChars_nil]
          simp [List.length_append, List.length_take, List.length_drop]
          omega
        · rw [hrepl]
          show listChars (cs.take i ++ delAfter (cs.getD i default) p so ++ new
            ++ delBefore (cs.getD j default) q eo ++ cs.drop (j + 1)) = _
          rw [getD_of_get? hc, getD_of_get? hc2, listChars_append, listChars_append,
            listChars_append, listChars_append, delAfter_chars p c so hvc,
            delBefore_chars q c2 eo hv2]
          simp [List.append_assoc]

theorem getNode?_cons_elim {t : String} {cs : List DNode} {i : Nat} {p : List Nat}
    {n : DNode} (h : getNode? (.elem t cs) (i :: p) = some n) :
    ∃ c, cs.get? i = some c ∧ getNode? c p = some n := by
  cases hg : cs.get? i with
  | none =>
      simp only [getNode?, hg] at h
      exact Option.noConfusion h
  | some c => exact ⟨c, rfl, by simpa only [getNode?, hg] using h⟩

theorem getNode?_cons_of_get? {t : String} {cs : List DNode} {i : Nat} {c : DNode}
    (p : List Nat) (h : cs.get? i = some c) :
    getNode? (.elem t cs) (i :: p) = getNode? c p := by
  simp only [getNode?, h]

theorem nodeAtD_elem {doc : DNode} {p : List Nat} {t : String} {cs : List DNode}
    (h : nodeAtD doc p = .elem t cs) : getNode? doc p = some (.elem t cs) := by
  unfold nodeAtD at h
  cases hg : getNode? doc p with
  | none => rw [hg] at h; exact DNode.noConfusion h
  | some n =>
      rw [hg] at h
      have hn : n = DNode.elem t cs := h
      rw [hn]

theorem hasParentWithTag_some {doc : DNode} {p q : List Nat} {t : String}
    (h : hasParentWithTag doc p t = some q) :
    q ∈ ancestorsDesc p ∧ ∃ cs, getNode? doc q = some (.elem (upStr t) cs) := by
  have h' : (ancestorsDesc p).find? (fun a => isTagAt doc a (upStr t)) = some q := h
  refine ⟨List.mem_of_find?_eq_some h', ?_⟩
  have ht : isTagAt doc q (upStr t) = true := by simpa using List.find?_some h'
  cases hg : getNode? doc q with
  | none => simp [isTagAt, hg] at ht
  | some n =>
    cases n with
    | text s => simp [isTagAt, hg] at ht
    | elem tg cs =>
      have : tg = upStr t := by simpa [isTagAt, hg] using ht
      exact ⟨cs, by rw [this]⟩

theorem isBlockAt_elem {doc : DNode} {bp : List Nat} (h : isBlockAt doc bp = true) :
    ∃ t cs, getNode? doc bp = some (.elem t cs) ∧ blockTags.contains t = true := by
  cases hg : getNode? doc bp with
  | none => simp [isBlockAt, hg] at h
  | some n =>
    cases n with
    | text s => simp [isBlockAt, hg, isBlockElement] at h
    | elem t cs =>
      exact ⟨t, cs, rfl, by simpa [isBlockAt, hg, isBlockElement] using h⟩

theorem ancestorsDesc_mem_take {p q : List Nat} (h : q ∈ ancestorsDesc p) :
    ∃ k, k < p.length ∧ q = p.take (k + 1) := by
  unfold ancestorsDesc at h
  obtain ⟨k, hk, rfl⟩ := List.mem_map.mp h
  exact ⟨k, List.mem_range.mp (List.mem_reverse.mp hk), rfl⟩

theorem take_eq_singleton {l : List Nat} {m a : Nat}
    (h : l.take (m + 1) = [a]) : ∃ rest, l = a :: rest := by
  cases l with
  | nil => simp at h
  | cons x xs =>
      have h3 : x :: xs.take m = [a] := h
      injection h3 with h4 h5
      exact ⟨xs, by rw [h4]⟩

theorem take_eq_pair {l : List Nat} {m a b : Nat}
    (h : l.take (m + 1) = [a, b]) : ∃ rest, l = a :: b :: rest := by
  cases l with
  | nil => simp at h
  | cons x xs =>
      have h3 : x :: xs.take m = [a, b] := h
      injection h3 with h4 h5
      cases m with
      | zero => simp at h5
      | succ m' =>
          obtain ⟨rest, hrest⟩ := take_eq_singleton h5
          exact ⟨rest, by rw [h4, hrest]⟩

theorem validRange_elim {doc : DNode} {r : SelRange} (h : validRange doc r = true) :
    validPos doc r.s = true ∧ validPos doc r.e = true
      ∧ bpLE r.s.path r.s.off r.e.path r.e.off = true := by
  unfold validRange at h
  rcases Bool.and_eq_true_iff.mp h with ⟨h1, h3⟩
  rcases Bool.and_eq_true_iff.mp h1 with ⟨ha, hb⟩
  exact ⟨ha, hb, h3⟩

theorem chars_set_split : ∀ (cs : List DNode) (i : Nat) (c x : DNode),
    cs.get? i = some c →
    listChars (cs.set i x)
      = listChars (cs.take i) ++ (nodeChars x ++ listChars (cs.drop (i + 1))) := by
  intro cs
  induction cs with
  | nil => intro i c x h; exact Option.noConfusion h
  | cons a cs ih =>
    intro i c x h
    cases i with
    | zero =>
      show listChars (x :: cs) = listChars [] ++ (nodeChars x ++ listChars cs)
      rw [listChars_cons, listChars_nil, List.nil_append]
    | succ n =>
      show listChars (a :: cs.set n x) = _
      rw [listChars_cons, ih n c x (by simpa using h)]
      show nodeChars a ++ (listChars (cs.take n) ++ (nodeChars x ++ listChars (cs.drop (n + 1))))
          = listChars (a :: cs.take n) ++ (nodeChars x ++ listChars (cs.drop (n + 1)))
      rw [listChars_cons, List.append_assoc]

theorem replaceNodeAt_chars (bp : List Nat) : ∀ (doc old new : DNode),
    getNode? doc bp = some old → bp ≠ [] →
    ∃ P S : List Char, nodeChars doc = P ++ (nodeChars old ++ S)
      ∧ nodeChars (replaceNodeAt doc bp new) = P ++ (nodeChars new ++ S) := by
  induction bp with
  | nil => intro doc old new _ hne; exact absurd rfl hne
  | cons i p ih =>
    intro doc old new h _
    cases doc with
    | text s => exact Option.noConfusion h
    | elem t cs =>
      obtain ⟨c, hci, h'⟩ := getNode?_cons_elim h
      cases p with
      | nil =>
        have hc : c = old := by simpa [getNode?] using h'
        subst hc
        refine ⟨listChars (cs.take i), listChars (cs.drop (i + 1)), ?_, ?_⟩
        · exact chars_split_at hci
        · show listChars (cs.set i new) = _
          exact chars_set_split cs i c new hci
      | cons j q =>
        obtain ⟨P, S, h1, h2⟩ := ih c old new h' (by simp)
        refine ⟨listChars (cs.take i) ++ P, S ++ listChars (cs.drop (i + 1)), ?_, ?_⟩
        · show listChars cs = _
          rw [chars_split_at hci, h1]
          simp [List.append_assoc]
        · show listChars (cs.set i (replaceNodeAt (cs.getD i default) (j :: q) new)) = _
          rw [getD_of_get? hci, chars_set_split cs i c _ hci, h2]
          simp [List.append_assoc]

theorem replaceNodeAt_chars_eq {bp : List Nat} {doc old new : DNode}
    (hold : getNode? doc bp = some old) (hne : bp ≠ [])
    (hchars : nodeChars new = nodeChars old) :
    nodeChars (replaceNodeAt doc bp new) = nodeChars doc := by
  obtain ⟨P, S, h1, h2⟩ := replaceNodeAt_chars bp doc old new hold hne
  rw [h2, hchars, ← h1]

theorem unwrapElement_chars (sp : List Nat) : ∀ (doc : DNode) (tg : String)
    (ccs : List DNode), getNode? doc sp = some (.elem tg ccs) →
    nodeChars (unwrapElement doc sp) = nodeChars doc := by
  induction sp with
  | nil => intro doc tg ccs _; cases doc <;> rfl
  | cons i p ih =>
    intro doc tg ccs h
    cases doc with
    | text s => exact Option.noConfusion h
    | elem t cs =>
      obtain ⟨c, hci, h'⟩ := getNode?_cons_elim h
      cases p with
      | nil =>
        have hc : c = DNode.elem tg ccs := by simpa [getNode?] using h'
        subst hc
        show listChars (cs.take i ++ childrenOf (cs.getD i default) ++ cs.drop (i + 1))
          = listChars cs
        rw [getD_of_get? hci]
        show listChars (cs.take i ++ ccs ++ cs.drop (i + 1)) = listChars cs
        rw [listChars_append, listChars_append, chars_split_at hci]
        show (listChars (cs.take i) ++ listChars ccs) ++ listChars (cs.drop (i + 1))
          = listChars (cs.take i) ++ (listChars ccs ++ listChars (cs.drop (i + 1)))
        exact List.append_assoc _ _ _
      | cons j q =>
        show listChars (cs.set i (unwrapElement (cs.getD i default) (j :: q))) = listChars cs
        rw [getD_of_get? hci, chars_set_split cs i c _ hci, ih c tg ccs h',
          ← chars_split_at hci]

theorem validInlineList_get? : ∀ (cs : List DNode) (i : Nat) (c : DNode),
    validInlineList cs = true → cs.get? i = some c → validInline c = true := by
  intro cs
  induction cs with
  | nil => intro i c _ h; exact Option.noConfusion h
  | cons a cs ih =>
    intro i c hv h
    have hv' : validInline a = true ∧ validInlineList cs = true := by
      simpa [validInlineList, Bool.and_eq_true] using hv
    cases i with
    | zero =>
        have : a = c := by simpa using h
        exact this ▸ hv'.1
    | succ n => exact ih n c hv'.2 (by simpa using h)

theorem validListItems_get? : ∀ (cs : List DNode) (i : Nat) (c : DNode),
    validListItems cs = true → cs.get? i = some c → validListItem c = true := by
  intro cs
  induction cs with
  | nil => intro i c _ h; exact Option.noConfusion h
  | cons a cs ih =>
    intro i c hv h
    have hv' : validListItem a = true ∧ validListItems cs = true := by
      simpa [validListItems, Bool.and_eq_true] using hv
    cases i with
    | zero =>
        have : a = c := by simpa using h
        exact this ▸ hv'.1
    | succ n => exact ih n c hv'.2 (by simpa using h)

theorem validTopList_get? : ∀ (cs : List DNode) (i : Nat) (c : DNode),
    validTopList cs = true → cs.get? i = some c → validTopNode c = true := by
  intro cs
  induction cs with
  | nil => intro i c _ h; exact Option.noConfusion h
  | cons a cs ih =>
    intro i c hv h
    have hv' : validTopNode a = true ∧ validTopList cs = true := by
      simpa [validTopList, Bool.and_eq_true] using hv
    cases i with
    | zero =>
        have : a = c := by simpa using h
        exact this ▸ hv'.1
    | succ n => exact ih n c hv'.2 (by simpa using h)

theorem validInline_get (q : List Nat) : ∀ (c n : DNode),
    validInline c = true → getNode? c q = some n → validInline n = true := by
  induction q with
  | nil =>
      intro c n hv h
      have : c = n := by simpa [getNode?] using h
      exact this ▸ hv
  | cons j q ih =>
    intro c n hv h
    cases c with
    | text s => exact Option.noConfusion h
    | elem tg ccs =>
      have hor : (tg == "BR" && ccs.isEmpty) = true
          ∨ (inlineTags.contains tg && validInlineList ccs) = true := by
        simpa [validInline, Bool.or_eq_true] using hv
      cases hg : ccs.get? j with
      | none =>
          simp only [getNode?, hg] at h
          exact Option.noConfusion h
      | some c' =>
          have h' : getNode? c' q = some n := by simpa only [getNode?, hg] using h
          rcases hor with hbr | hin
          · have hemp : ccs = [] := by
              rcases Bool.and_eq_true_iff.mp hbr with ⟨_, h2⟩
              simpa using h2
            rw [hemp] at hg
            exact Option.noConfusion hg
          · rcases Bool.and_eq_true_iff.mp hin with ⟨_, hl⟩
            exact ih c' n (validInlineList_get? ccs j c' hl hg) h'

theorem validInline_elem_tag {t : String} {cs : List DNode}
    (h : validInline (.elem t cs) = true) :
    t = "BR" ∨ t ∈ inlineTags := by
  have hor : (t == "BR" && cs.isEmpty) = true
      ∨ (inlineTags.contains t && validInlineList cs) = true := by
    simpa [validInline, Bool.or_eq_true] using h
  rcases hor with h1 | h1
  · exact Or.inl (by simpa using (Bool.and_eq_true_iff.mp h1).1)
  · exact Or.inr (by simpa using (Bool.and_eq_true_iff.mp h1).1)

theorem validInline_no_list (q : List Nat) (c : DNode) (t : String) (cs : List DNode)
    (hv : validInline c = true) (h : getNode? c q = some (.elem t cs)) :
    t ≠ "UL" ∧ t ≠ "OL" ∧ t ≠ "LI" := by
  rcases validInline_elem_tag (validInline_get q c _ hv h) with h1 | h1
  · subst h1; exact ⟨by decide, by decide, by decide⟩
  · simp [inlineTags] at h1
    rcases h1 with rfl | rfl | rfl | rfl <;> exact ⟨by decide, by decide, by decide⟩

theorem validListItem_elim {c : DNode} (h : validListItem c = true) :
    ∃ cs, c = DNode.elem "LI" cs ∧ validInlineList cs = true := by
  cases c with
  | text s => exact absurd h (by simp [validListItem])
  | elem t cs =>
    have h2 : t = "LI" ∧ validInlineList cs = true := by
      simpa [validListItem, Bool.and_eq_true] using h
    exact ⟨cs, by rw [h2.1], h2.2⟩

theorem validListItems_filter : ∀ (cs : List DNode),
    validListItems cs = true → cs.filter isElemNode = cs := by
  intro cs
  induction cs with
  | nil => intro _; rfl
  | cons a cs ih =>
    intro h
    have h2 : validListItem a = true ∧ validListItems cs = true := by
      simpa [validListItems, Bool.and_eq_true] using h
    obtain ⟨acs, rfl, _⟩ := validListItem_elim h2.1
    show List.filter isElemNode (DNode.elem "LI" acs :: cs) = _
    rw [List.filter_cons_of_pos (by rfl), ih h2.2]

theorem valid_node_structure {doc : DNode} (hdoc : validDocB doc = true) :
    ∀ (q : List Nat) (t : String) (cs : List DNode),
    getNode? doc q = some (.elem t cs) →
    ((t = "UL" ∨ t = "OL") → (∃ i, q = [i]) ∧ validListItems cs = true) ∧
    (t = "LI" → ∃ i j, q = [i, j]) := by
  cases doc with
  | text s => exact absurd hdoc (by simp [validDocB])
  | elem bt tcs =>
    have hb : bt = "BODY" ∧ validTopList tcs = true := by
      simpa [validDocB, Bool.and_eq_true] using hdoc
    intro q t cs h
    cases q with
    | nil =>
      have heq : DNode.elem bt tcs = DNode.elem t cs := by simpa [getNode?] using h
      injection heq with h1 _
      have ht : t = "BODY" := by rw [← h1, hb.1]
      constructor
      · rintro (rfl | rfl) <;> exact absurd ht (by decide)
      · rintro rfl; exact absurd ht (by decide)
    | cons i q' =>
      obtain ⟨c, hci, h'⟩ := getNode?_cons_elim h
      have htop : validTopNode c = true := validTopList_get? tcs i c hb.2 hci
      cases c with
      | text s => exact absurd htop (by simp [validTopNode])
      | elem t1 c1s =>
        by_cases hlist : t1 = "UL" ∨ t1 = "OL"
        · have hcond : (t1 == "UL" || t1 == "OL") = true := by
            rcases hlist with rfl | rfl <;> rfl
          have hitems : validListItems c1s = true := by
            have := htop
            rw [validTopNode, if_pos hcond] at this
            exact this
          cases q' with
          | nil =>
            have heq : DNode.elem t1 c1s = DNode.elem t cs := by simpa [getNode?] using h'
            injection heq with h1 h2
            constructor
            · intro _; exact ⟨⟨i, rfl⟩, h2 ▸ hitems⟩
            · intro hli
              rcases hlist with h3 | h3 <;>
                · rw [hli, h3] at h1; exact absurd h1 (by decide)
          | cons j q'' =>
            obtain ⟨c2, hcj, h''⟩ := getNode?_cons_elim h'
            have hvi : validListItem c2 = true := validListItems_get? c1s j c2 hitems hcj
            obtain ⟨c2s, rfl, hinl⟩ := validListItem_elim hvi
            cases q'' with
            | nil =>
              have heq : DNode.elem "LI" c2s = DNode.elem t cs := by simpa [getNode?] using h''
              injection heq with h1 _
              constructor
              · rintro (rfl | rfl) <;> exact absurd h1 (by decide)
              · intro _; exact ⟨i, j, rfl⟩
            | cons m q''' =>
              obtain ⟨c3, hcm, h'''⟩ := getNode?_cons_elim h''
              have hv3 : validInline c3 = true := validInlineList_get? c2s m c3 hinl hcm
              have hno := validInline_no_list q''' c3 t cs hv3 h'''
              constructor
              · rintro (rfl | rfl)
                · exact absurd rfl hno.1
                · exact absurd rfl hno.2.1
              · rintro rfl; exact absurd rfl hno.2.2
        · have hcond : ¬((t1 == "UL" || t1 == "OL") = true) := by
            simpa [Bool.or_eq_true, beq_iff_eq] using hlist
          have hbl : (blockTags.contains t1 && t1 != "LI" && validInlineList c1s) = true := by
            have := htop
            rw [validTopNode, if_neg hcond] at this
            exact this
          rcases Bool.and_eq_true_iff.mp hbl with ⟨hbl1, hinl1⟩
          rcases Bool.and_eq_true_iff.mp hbl1 with ⟨_, hne1⟩
          cases q' with
          | nil =>
            have heq : DNode.elem t1 c1s = DNode.elem t cs := by simpa [getNode?] using h'
            injection heq with h1 _
            constructor
            · rintro (rfl | rfl)
              · exact absurd (Or.inl h1) hlist
              · exact absurd (Or.inr h1) hlist
            · rintro rfl
              have hne2 : t1 ≠ "LI" := by simpa using hne1
              exact absurd h1 hne2
          | cons j q'' =>
            obtain ⟨c2, hcj, h''⟩ := getNode?_cons_elim h'
            have hv2 : validInline c2 = true := validInlineList_get? c1s j c2 hinl1 hcj
            have hno := validInline_no_list q'' c2 t cs hv2 h''
            constructor
            · rintro (rfl | rfl)
              · exact absurd rfl hno.1
              · exact absurd rfl hno.2.1
            · rintro rfl; exact absurd rfl hno.2.2

theorem getNode?_append (p : List Nat) : ∀ (doc n : DNode) (q : List Nat),
    getNode? doc p = some n → getNode? doc (p ++ q) = getNode? n q := by
  induction p with
  | nil =>
      intro doc n q h
      have : doc = n := by simpa [getNode?] using h
      rw [List.nil_append, this]
  | cons i p' ih =>
    intro doc n q h
    cases doc with
    | text s => exact Option.noConfusion h
    | elem t cs =>
      obtain ⟨c, hci, h'⟩ := getNode?_cons_elim h
      rw [List.cons_append, getNode?_cons_of_get? (p' ++ q) hci]
      exact ih c n q h'

theorem getNode?_single_elim {t : String} {cs : List DNode} {i : Nat} {n : DNode}
    (h : getNode? (.elem t cs) [i] = some n) : cs.get? i = some n := by
  obtain ⟨c, hc, h'⟩ := getNode?_cons_elim h
  have hcn : c = n := by simpa [getNode?] using h'
  rw [← hcn]
  exact hc

theorem replaceRange_chars {doc : DNode} {r : SelRange} {new : List DNode}
    (hr : validRange doc r = true)
    (hchars : listChars new = listChars (extractRange doc r)) :
    nodeChars ((replaceRangeN doc r new).1) = nodeChars doc := by
  obtain ⟨hs, he, hle⟩ := validRange_elim hr
  cases doc with
  | text s => rfl
  | elem tg cs =>
    obtain ⟨P, S, h1, _, _, h4⟩ := range_chars_decomp r.s.path cs r.s.off r.e.path
      r.e.off new hs he hle
    show listChars ((replRangeListN cs r.s.path r.s.off r.e.path r.e.off new).1)
      = listChars cs
    rw [h4, hchars]
    exact h1.symm

theorem rangeContent_chars (tg : String) (cs : List DNode) (r : SelRange)
    (hr : validRange (.elem tg cs) r = true) :
    listChars (if rangeToString (.elem tg cs) r = "" then [DNode.elem "BR" []]
      else [DNode.text (rangeToString (.elem tg cs) r)])
      = listChars (extractRange (.elem tg cs) r) := by
  obtain ⟨hs, he, hle⟩ := validRange_elim hr
  obtain ⟨P, S, h1, h2, h3, _⟩ := range_chars_decomp r.s.path cs r.s.off r.e.path
    r.e.off [] hs he hle
  have hE : (rangeToString (.elem tg cs) r).data
      = listChars (extRangeList cs r.s.path r.s.off r.e.path r.e.off) := by
    show (((listChars cs).drop (gOffList cs r.s.path r.s.off)).take
      (gOffList cs r.e.path r.e.off - gOffList cs r.s.path r.s.off)) = _
    exact slice_eq_of_decomp h1 h2 h3
  by_cases hstr : rangeToString (.elem tg cs) r = ""
  · rw [if_pos hstr]
    have hE2 : listChars (extRangeList cs r.s.path r.s.off r.e.path r.e.off) = [] := by
      rw [← hE, hstr]
    show ([] : List Char) = listChars (extractRange (.elem tg cs) r)
    exact hE2.symm
  · rw [if_neg hstr]
    show (rangeToString (.elem tg cs) r).data ++ [] = _
    rw [List.append_nil]
    exact hE

theorem inlineWrap_chars (tagU : String) (doc : DNode) (r : SelRange)
    (hr : validRange doc r = true) :
    nodeChars (inlineWrap tagU doc r).1 = nodeChars doc := by
  refine replaceRange_chars hr ?_
  show listChars (extractRange doc r) ++ [] = listChars (extractRange doc r)
  rw [List.append_nil]

theorem applyInlineStyle_chars (tagName : String) (doc : DNode) (r : SelRange)
    (hr : validRange doc r = true) :
    nodeChars (applyInlineStyle tagName doc r).1 = nodeChars doc := by
  cases hcol : isRangeEmpty r with
  | true => simp [applyInlineStyle, hcol]
  | false =>
    cases hpar : hasParentWithTag doc (cacPath r) tagName with
    | none =>
      simp only [applyInlineStyle, hcol, Bool.false_eq_true, if_false, hpar]
      exact inlineWrap_chars (upStr tagName) doc r hr
    | some sp =>
      obtain ⟨_, scs, hsp⟩ := hasParentWithTag_some hpar
      by_cases hts : rangeToString doc r = nodeText (nodeAtD doc sp)
      · have hred : (applyInlineStyle tagName doc r).1 = unwrapElement doc sp := by
          simp only [applyInlineStyle, hcol, Bool.false_eq_true, if_false, hpar]
          rw [if_pos hts]
          split <;> rfl
        rw [hred]
        exact unwrapElement_chars sp doc (upStr tagName) scs hsp
      · simp only [applyInlineStyle, hcol, Bool.false_eq_true, if_false, hpar]
        rw [if_neg hts]
        exact inlineWrap_chars (upStr tagName) doc r hr

theorem applyBlockFormat_chars (tagName : String) (doc : DNode) (r : SelRange)
    (hr : validRange doc r = true) :
    nodeChars (applyBlockFormat tagName doc r).1 = nodeChars doc := by
  cases hfb : findParentBlock doc (cacPath r) with
  | none =>
    cases doc with
    | text s =>
        simp only [applyBlockFormat, hfb]
        rfl
    | elem tg cs =>
        simp only [applyBlockFormat, hfb]
        refine replaceRange_chars hr ?_
        show listChars (if rangeToString (DNode.elem tg cs) r = "" then [DNode.elem "BR" []]
            else [DNode.text (rangeToString (DNode.elem tg cs) r)]) ++ [] = _
        rw [List.append_nil]
        exact rangeContent_chars tg cs r hr
  | some bp =>
    obtain ⟨hne, hblk⟩ := findParentBlock_props hfb
    obtain ⟨btag, bcs, hget, _⟩ := isBlockAt_elem hblk
    have hatd : nodeAtD doc bp = DNode.elem btag bcs := by
      unfold nodeAtD
      rw [hget]
      rfl
    simp only [applyBlockFormat, hfb, hatd]
    exact replaceNodeAt_chars_eq hget hne rfl

theorem toggleList_chars (listType : String) (doc : DNode) (r : SelRange)
    (hdoc : validDocB doc = true) (hr : validRange doc r = true) :
    nodeChars (toggleList listType doc r).1 = nodeChars doc := by
  cases hul : (hasParentWithTag doc (cacPath r) "ul").orElse
      (fun _ => hasParentWithTag doc (cacPath r) "ol") with
  | none =>
    cases hfb : findParentBlock doc (cacPath r) with
    | some bp =>
      obtain ⟨hne, hblk⟩ := findParentBlock_props hfb
      obtain ⟨btag, bcs, hget, _⟩ := isBlockAt_elem hblk
      have hatd : nodeAtD doc bp = DNode.elem btag bcs := by
        unfold nodeAtD
        rw [hget]
        rfl
      simp only [toggleList, hul, hfb, hatd]
      refine replaceNodeAt_chars_eq hget hne ?_
      show listChars bcs ++ [] = listChars bcs
      rw [List.append_nil]
    | none =>
      cases doc with
      | text s =>
          simp only [toggleList, hul, hfb]
          rfl
      | elem tg cs =>
          simp only [toggleList, hul, hfb]
          refine replaceRange_chars hr ?_
          show (listChars (if rangeToString (DNode.elem tg cs) r = "" then [DNode.elem "BR" []]
              else [DNode.text (rangeToString (DNode.elem tg cs) r)]) ++ []) ++ [] = _
          rw [List.append_nil, List.append_nil]
          exact rangeContent_chars tg cs r hr
  | some lp =>
    cases hli : hasParentWithTag doc (cacPath r) "li" with
    | none => simp [toggleList, hul, hli]
    | some lip =>
      have hulol : lp ∈ ancestorsDesc (cacPath r)
          ∧ ∃ L lcs, getNode? doc lp = some (DNode.elem L lcs)
            ∧ (L = "UL" ∨ L = "OL") := by
        cases hu : hasParentWithTag doc (cacPath r) "ul" with
        | some q =>
          have hq : q = lp := by
            rw [hu] at hul
            simpa [Option.orElse] using hul
          subst hq
          obtain ⟨hmem, cs0, hg0⟩ := hasParentWithTag_some hu
          exact ⟨hmem, upStr "ul", cs0, hg0, Or.inl (by decide)⟩
        | none =>
          have h2 : hasParentWithTag doc (cacPath r) "ol" = some lp := by
            rw [hu] at hul
            simpa [Option.orElse] using hul
          obtain ⟨hmem, cs0, hg0⟩ := hasParentWithTag_some h2
          exact ⟨hmem, upStr "ol", cs0, hg0, Or.inr (by decide)⟩
      obtain ⟨hmemlp, L, lcs, hgetlp, hLor⟩ := hulol
      obtain ⟨hmemli, lics, hgetlip'⟩ := hasParentWithTag_some hli
      have hgetlip : getNode? doc lip = some (DNode.elem "LI" lics) := by
        have hup : upStr "li" = "LI" := by decide
        rwa [hup] at hgetlip'
      have hatdlip : nodeAtD doc lip = DNode.elem "LI" lics := by
        unfold nodeAtD
        rw [hgetlip]
        rfl
      have hlipne : lip ≠ [] := ancestorsDesc_ne_nil hmemli
      by_cases hcnt : elemChildCount (nodeAtD doc lp) = 1
      · obtain ⟨⟨i0, hlp⟩, hitems⟩ := (valid_node_structure hdoc lp L lcs hgetlp).1 hLor
        obtain ⟨i1, j1, hlip⟩ := (valid_node_structure hdoc lip "LI" lics hgetlip).2 rfl
        obtain ⟨k0, _, hq0⟩ := ancestorsDesc_mem_take hmemlp
        obtain ⟨k1, _, hq1⟩ := ancestorsDesc_mem_take hmemli
        obtain ⟨rest0, hc0⟩ := take_eq_singleton (hq0.symm.trans hlp)
        obtain ⟨rest1, hc1⟩ := take_eq_pair (hq1.symm.trans hlip)
        injection hc0.symm.trans hc1 with hi _
        subst hi
        have hlip2 : lip = lp ++ [j1] := by
          rw [hlip, hlp]
          rfl
        have hatdlp : nodeAtD doc lp = DNode.elem L lcs := by
          unfold nodeAtD
          rw [hgetlp]
          rfl
        have hlen : lcs.length = 1 := by
          rw [hatdlp] at hcnt
          unfold elemChildCount at hcnt
          rw [show childrenOf (DNode.elem L lcs) = lcs from rfl,
            validListItems_filter lcs hitems] at hcnt
          exact hcnt
        have hgj : getNode? (DNode.elem L lcs) [j1] = some (DNode.elem "LI" lics) := by
          rw [← getNode?_append lp doc _ [j1] hgetlp, ← hlip2, hgetlip]
        have hget1 : lcs.get? j1 = some (DNode.elem "LI" lics) :=
          getNode?_single_elim hgj
        obtain ⟨x, hlcs⟩ := List.length_eq_one.mp hlen
        have hx : x = DNode.elem "LI" lics := by
          rw [hlcs] at hget1
          cases j1 with
          | zero => simpa using hget1
          | succ m => simp at hget1
        subst hx
        simp only [toggleList, hul, hli]
        rw [if_pos hcnt]
        refine replaceNodeAt_chars_eq hgetlp (ancestorsDesc_ne_nil hmemlp) ?_
        rw [hatdlip, hlcs]
        show listChars lics = listChars lics ++ []
        rw [List.append_nil]
      · simp only [toggleList, hul, hli]
        rw [if_neg hcnt]
        refine replaceNodeAt_chars_eq hgetlip hlipne ?_
        rw [hatdlip]
        rfl

theorem normList_cons (c : DNode) (L : List DNode) :
    normList (c :: L) = normCons (normalizeNode c) (normList L) := rfl

theorem normCons_text (s : String) (L : List DNode) :
    normCons (DNode.text s) L
      = if s = "" then L
        else match L with
          | DNode.text s2 :: r2 => DNode.text (s ++ s2) :: r2
          | other => DNode.text s :: other := rfl

theorem normCons_elem (t : String) (cs L : List DNode) :
    normCons (DNode.elem t cs) L = DNode.elem t cs :: L := rfl

theorem normList_cons_elem (t : String) (cs L : List DNode) :
    normList (DNode.elem t cs :: L) = DNode.elem t (normList cs) :: normList L := rfl

theorem norm_congr_append (A : List DNode) {L1 L2 : List DNode}
    (h : normList L1 = normList L2) :
    normList (A ++ L1) = normList (A ++ L2) := by
  induction A with
  | nil => exact h
  | cons a A' ih =>
      rw [List.cons_append, List.cons_append, normList_cons, normList_cons, ih]

theorem string_mk_empty_iff {a : List Char} : String.mk a = "" ↔ a = [] := by
  constructor
  · intro h; exact congrArg String.data h
  · intro h; rw [h]

theorem normCons_text_text (a b : List Char) (X : List DNode) :
    normCons (DNode.text (String.mk a)) (normCons (DNode.text (String.mk b)) X)
      = normCons (DNode.text (String.mk (a ++ b))) X := by
  by_cases ha : a = []
  · subst ha
    rw [normCons_text, if_pos (string_mk_empty_iff.mpr rfl), List.nil_append]
  · have ha' : ¬(String.mk a = "") := fun h => ha (string_mk_empty_iff.mp h)
    by_cases hb : b = []
    · subst hb
      rw [normCons_text (String.mk []), if_pos (string_mk_empty_iff.mpr rfl),
        List.append_nil]
    · have hb' : ¬(String.mk b = "") := fun h => hb (string_mk_empty_iff.mp h)
      have hab' : ¬(String.mk (a ++ b) = "") := fun h =>
        ha (List.append_eq_nil.mp (string_mk_empty_iff.mp h)).1
      rw [normCons_text (String.mk b), if_neg hb', normCons_text (String.mk a),
        if_neg ha', normCons_text (String.mk (a ++ b)), if_neg hab']
      cases X with
      | nil => rfl
      | cons hd tl =>
        cases hd with
        | text s2 =>
            have hs : String.mk a ++ (String.mk b ++ s2) = String.mk (a ++ b) ++ s2 := by
              cases s2 with
              | mk d =>
                  show String.mk (a ++ (b ++ d)) = String.mk ((a ++ b) ++ d)
                  rw [List.append_assoc]
            show DNode.text (String.mk a ++ (String.mk b ++ s2)) :: tl
              = DNode.text (String.mk (a ++ b) ++ s2) :: tl
            rw [hs]
        | elem t2 cs2 => rfl

theorem norm_opt_text (l : List Char) (L : List DNode) :
    normList ((if l.isEmpty then [] else [DNode.text (String.mk l)]) ++ L)
      = normList (DNode.text (String.mk l) :: L) := by
  cases l with
  | nil =>
      show normList L = normCons (normalizeNode (DNode.text (String.mk []))) (normList L)
      show normList L = normCons (DNode.text (String.mk [])) (normList L)
      rw [normCons_text, if_pos (string_mk_empty_iff.mpr rfl)]
  | cons c cs => rfl

theorem append_singleton_middle {α : Type} (A : List α) (x : α) (B : List α) :
    A ++ [x] ++ B = A ++ x :: B := by
  rw [List.append_assoc]
  rfl

theorem append5_middle {α : Type} (A C : List α) (x : α) (D B : List α) :
    A ++ C ++ [x] ++ D ++ B = (A ++ C) ++ x :: (D ++ B) := by
  rw [List.append_assoc (A ++ C ++ [x]) D B, List.append_assoc (A ++ C) [x] (D ++ B)]
  rfl

theorem norm_text_cons (a b : List Char) (L : List DNode) :
    normList (DNode.text (String.mk a) :: DNode.text (String.mk b) :: L)
      = normList (DNode.text (String.mk (a ++ b)) :: L) := by
  rw [normList_cons, normList_cons, normList_cons]
  exact normCons_text_text a b (normList L)

theorem norm_text_opt (s : String) (l : List Char) (B : List DNode) :
    normList (DNode.text s :: ((if l.isEmpty then [] else [DNode.text (String.mk l)]) ++ B))
      = normList (DNode.text s :: DNode.text (String.mk l) :: B) := by
  rw [normList_cons, normList_cons, norm_opt_text]

theorem applyInline_wrap_text (tagName ptag t : String) (X Y A B : List DNode)
    (so eo : Nat) (hso : so < eo) (heo : eo ≤ t.length)
    (hptag : ptag ≠ upStr tagName) :
    applyInlineStyle tagName
        (.elem "BODY" (X ++ .elem ptag (A ++ .text t :: B) :: Y))
        ⟨⟨[X.length, A.length], so⟩, ⟨[X.length, A.length], eo⟩⟩
      = (DNode.elem "BODY" (X ++ DNode.elem ptag
            ((A ++ (if (t.data.take so).isEmpty then []
                else [DNode.text (String.mk (t.data.take so))]))
              ++ DNode.elem (upStr tagName) [DNode.text (String.mk ((t.data.take eo).drop so))]
                :: ((if (t.data.drop eo).isEmpty then []
                    else [DNode.text (String.mk (t.data.drop eo))]) ++ B)) :: Y),
          ⟨⟨[X.length, (A ++ (if (t.data.take so).isEmpty then []
              else [DNode.text (String.mk (t.data.take so))])).length], 0⟩,
            ⟨[X.length, (A ++ (if (t.data.take so).isEmpty then []
              else [DNode.text (String.mk (t.data.take so))])).length], 1⟩⟩) := by
  have hcol : isRangeEmpty
      (⟨⟨[X.length, A.length], so⟩, ⟨[X.length, A.length], eo⟩⟩ : SelRange) = false := by
    simp [isRangeEmpty, Pos.mk.injEq]
    omega
  have hcac : cacPath (⟨⟨[X.length, A.length], so⟩, ⟨[X.length, A.length], eo⟩⟩ : SelRange)
      = [X.length, A.length] := by
    simp [cacPath, commonAncPath_self]
  have hnodeTxt : getNode? (DNode.elem "BODY" (X ++ .elem ptag (A ++ .text t :: B) :: Y))
      [X.length, A.length] = some (DNode.text t) := by
    have h1 := getNode?_middle "BODY" X (DNode.elem ptag (A ++ DNode.text t :: B)) Y [A.length]
    have h2 := getNode?_middle ptag A (DNode.text t) B []
    exact (h1.trans h2).trans rfl
  have hnodeP : getNode? (DNode.elem "BODY" (X ++ .elem ptag (A ++ .text t :: B) :: Y))
      [X.length] = some (DNode.elem ptag (A ++ DNode.text t :: B)) := by
    simpa using getNode?_middle "BODY" X (DNode.elem ptag (A ++ DNode.text t :: B)) Y []
  have hnone : hasParentWithTag (DNode.elem "BODY" (X ++ .elem ptag (A ++ .text t :: B) :: Y))
      (cacPath (⟨⟨[X.length, A.length], so⟩, ⟨[X.length, A.length], eo⟩⟩ : SelRange)) tagName
      = none := by
    rw [hcac]
    simp [hasParentWithTag, ancestorsDesc_two, List.find?, isTagAt, hnodeTxt, hnodeP, hptag]
  have hmidne : ((t.data.take eo).drop so).isEmpty = false := by
    have hlen : ((t.data.take eo).drop so).length = eo - so := by
      rw [List.length_drop, List.length_take]
      have ht : t.data.length = t.length := rfl
      omega
    cases hm : (t.data.take eo).drop so with
    | nil => rw [hm] at hlen; simp at hlen; omega
    | cons c cs2 => rfl
  have hext : extractRange (DNode.elem "BODY" (X ++ .elem ptag (A ++ .text t :: B) :: Y))
      (⟨⟨[X.length, A.length], so⟩, ⟨[X.length, A.length], eo⟩⟩ : SelRange)
      = [DNode.text (String.mk ((t.data.take eo).drop so))] := by
    show extRangeList (X ++ DNode.elem ptag (A ++ DNode.text t :: B) :: Y)
        [X.length, A.length] so [X.length, A.length] eo = _
    simp only [extRangeList, eq_self_iff_true, if_true, getD_middle, hmidne,
      Bool.false_eq_true, if_false]
  have hrepl : replRangeListN (X ++ DNode.elem ptag (A ++ DNode.text t :: B) :: Y)
      [X.length, A.length] so [X.length, A.length] eo
      [DNode.elem (upStr tagName) [DNode.text (String.mk ((t.data.take eo).drop so))]]
    = (X ++ [DNode.elem ptag (A
          ++ (if (t.data.take so).isEmpty then []
              else [DNode.text (String.mk (t.data.take so))])
          ++ [DNode.elem (upStr tagName) [DNode.text (String.mk ((t.data.take eo).drop so))]]
          ++ (if (t.data.drop eo).isEmpty then []
              else [DNode.text (String.mk (t.data.drop eo))])
          ++ B)] ++ Y,
        [X.length, A.length + (if (t.data.take so).isEmpty then ([] : List DNode)
            else [DNode.text (String.mk (t.data.take so))]).length]) := by
    simp only [replRangeListN, eq_self_iff_true, if_true, getD_middle, List.take_left,
      drop_middle]
  simp only [applyInlineStyle, hcol, Bool.false_eq_true, if_false, hnone, inlineWrap,
    hext, replaceRangeN, hrepl, selectContents]
  rw [append5_middle A (if (t.data.take so).isEmpty then []
        else [DNode.text (String.mk (t.data.take so))])
      (DNode.elem (upStr tagName) [DNode.text (String.mk ((t.data.take eo).drop so))])
      (if (t.data.drop eo).isEmpty then [] else [DNode.text (String.mk (t.data.drop eo))]) B,
    append_singleton_middle X _ Y,
    show A.length + (if (t.data.take so).isEmpty then ([] : List DNode)
        else [DNode.text (String.mk (t.data.take so))]).length
      = (A ++ (if (t.data.take so).isEmpty then ([] : List DNode)
        else [DNode.text (String.mk (t.data.take so))])).length
      from (List.length_append _ _).symm]
  have h1 := getNode?_middle "BODY" X (DNode.elem ptag
    ((A ++ (if (t.data.take so).isEmpty then []
        else [DNode.text (String.mk (t.data.take so))]))
      ++ DNode.elem (upStr tagName) [DNode.text (String.mk ((t.data.take eo).drop so))]
        :: ((if (t.data.drop eo).isEmpty then []
            else [DNode.text (String.mk (t.data.drop eo))]) ++ B))) Y
    [(A ++ (if (t.data.take so).isEmpty then []
        else [DNode.text (String.mk (t.data.take so))])).length]
  have h2 := getNode?_middle ptag
    (A ++ (if (t.data.take so).isEmpty then []
        else [DNode.text (String.mk (t.data.take so))]))
    (DNode.elem (upStr tagName) [DNode.text (String.mk ((t.data.take eo).drop so))])
    ((if (t.data.drop eo).isEmpty then []
        else [DNode.text (String.mk (t.data.drop eo))]) ++ B) []
  have hW : nodeAtD (DNode.elem "BODY" (X ++ DNode.elem ptag
        ((A ++ (if (t.data.take so).isEmpty then []
            else [DNode.text (String.mk (t.data.take so))]))
          ++ DNode.elem (upStr tagName) [DNode.text (String.mk ((t.data.take eo).drop so))]
            :: ((if (t.data.drop eo).isEmpty then []
                else [DNode.text (String.mk (t.data.drop eo))]) ++ B)) :: Y))
      [X.length, (A ++ (if (t.data.take so).isEmpty then []
          else [DNode.text (String.mk (t.data.take so))])).length]
      = DNode.elem (upStr tagName) [DNode.text (String.mk ((t.data.take eo).drop so))] := by
    unfold nodeAtD
    rw [(h1.trans h2).trans rfl]
    rfl
  rw [hW]
  rfl

theorem applyInline_unwrap_wrapper (tagName ptag : String) (X Y C D : List DNode)
    (m : List Char) :
    (applyInlineStyle tagName
      (DNode.elem "BODY" (X ++ DNode.elem ptag
        (C ++ DNode.elem (upStr tagName) [DNode.text (String.mk m)] :: D) :: Y))
      ⟨⟨[X.length, C.length], 0⟩, ⟨[X.length, C.length], 1⟩⟩).1
    = DNode.elem "BODY" (X ++ DNode.elem ptag
        (C ++ DNode.text (String.mk m) :: D) :: Y) := by
  have hcol2 : isRangeEmpty
      (⟨⟨[X.length, C.length], 0⟩, ⟨[X.length, C.length], 1⟩⟩ : SelRange) = false := by
    simp [isRangeEmpty, Pos.mk.injEq]
  have hcac2 : cacPath
      (⟨⟨[X.length, C.length], 0⟩, ⟨[X.length, C.length], 1⟩⟩ : SelRange)
      = [X.length, C.length] := by
    simp [cacPath, commonAncPath_self]
  have hnodeW : getNode? (DNode.elem "BODY" (X ++ DNode.elem ptag
      (C ++ DNode.elem (upStr tagName) [DNode.text (String.mk m)] :: D) :: Y))
      [X.length, C.length]
      = some (DNode.elem (upStr tagName) [DNode.text (String.mk m)]) := by
    have h1 := getNode?_middle "BODY" X (DNode.elem ptag
      (C ++ DNode.elem (upStr tagName) [DNode.text (String.mk m)] :: D)) Y [C.length]
    have h2 := getNode?_middle ptag C
      (DNode.elem (upStr tagName) [DNode.text (String.mk m)]) D []
    exact (h1.trans h2).trans rfl
  have hatdW : nodeAtD (DNode.elem "BODY" (X ++ DNode.elem ptag
      (C ++ DNode.elem (upStr tagName) [DNode.text (String.mk m)] :: D) :: Y))
      [X.length, C.length]
      = DNode.elem (upStr tagName) [DNode.text (String.mk m)] := by
    unfold nodeAtD
    rw [hnodeW]
    rfl
  have hfound : hasParentWithTag (DNode.elem "BODY" (X ++ DNode.elem ptag
      (C ++ DNode.elem (upStr tagName) [DNode.text (String.mk m)] :: D) :: Y))
      (cacPath (⟨⟨[X.length, C.length], 0⟩, ⟨[X.length, C.length], 1⟩⟩ : SelRange)) tagName
      = some [X.length, C.length] := by
    rw [hcac2]
    simp [hasParentWithTag, ancestorsDesc_two, List.find?, isTagAt, hnodeW]
  have hgoff : ∀ off : Nat, gOffTop (DNode.elem "BODY" (X ++ DNode.elem ptag
      (C ++ DNode.elem (upStr tagName) [DNode.text (String.mk m)] :: D) :: Y))
      ⟨[X.length, C.length], off⟩
      = (listChars X).length + ((listChars C).length
        + (listChars (List.take off [DNode.text (String.mk m)])).length) := by
    intro off
    show gOffList (X ++ DNode.elem ptag
        (C ++ DNode.elem (upStr tagName) [DNode.text (String.mk m)] :: D) :: Y)
        (X.length :: C.length :: []) off = _
    rw [gOffList_cons, List.take_left, getD_middle]
    show (listChars X).length + gOffList
        (C ++ DNode.elem (upStr tagName) [DNode.text (String.mk m)] :: D)
        (C.length :: []) off = _
    rw [gOffList_cons, List.take_left, getD_middle]
    rfl
  have hchars : nodeChars (DNode.elem "BODY" (X ++ DNode.elem ptag
      (C ++ DNode.elem (upStr tagName) [DNode.text (String.mk m)] :: D) :: Y))
      = (listChars X ++ listChars C) ++ m ++ (listChars D ++ listChars Y) := by
    simp [nodeChars, listChars, listChars_append, string_mk_data]
  have hts : rangeToString (DNode.elem "BODY" (X ++ DNode.elem ptag
      (C ++ DNode.elem (upStr tagName) [DNode.text (String.mk m)] :: D) :: Y))
      (⟨⟨[X.length, C.length], 0⟩, ⟨[X.length, C.length], 1⟩⟩ : SelRange)
      = nodeText (nodeAtD (DNode.elem "BODY" (X ++ DNode.elem ptag
        (C ++ DNode.elem (upStr tagName) [DNode.text (String.mk m)] :: D) :: Y))
        [X.length, C.length]) := by
    unfold rangeToString
    rw [show gOffTop (DNode.elem "BODY" (X ++ DNode.elem ptag
        (C ++ DNode.elem (upStr tagName) [DNode.text (String.mk m)] :: D) :: Y))
        ((⟨⟨[X.length, C.length], 0⟩, ⟨[X.length, C.length], 1⟩⟩ : SelRange)).s
        = (listChars X).length + ((listChars C).length
          + (listChars (List.take 0 [DNode.text (String.mk m)])).length) from hgoff 0,
      show gOffTop (DNode.elem "BODY" (X ++ DNode.elem ptag
        (C ++ DNode.elem (upStr tagName) [DNode.text (String.mk m)] :: D) :: Y))
        ((⟨⟨[X.length, C.length], 0⟩, ⟨[X.length, C.length], 1⟩⟩ : SelRange)).e
        = (listChars X).length + ((listChars C).length
          + (listChars (List.take 1 [DNode.text (String.mk m)])).length) from hgoff 1]
    rw [slice_of_decomp _ (listChars X ++ listChars C) m (listChars D ++ listChars Y)
      hchars _ _ (by simp [listChars_nil]) (by
        simp [listChars_cons, listChars_nil, nodeChars, string_mk_data, Nat.add_assoc])]
    rw [hatdW]
    show String.mk m = String.mk (m ++ [])
    rw [List.append_nil]
  have hunwrap : unwrapElement (DNode.elem "BODY" (X ++ DNode.elem ptag
      (C ++ DNode.elem (upStr tagName) [DNode.text (String.mk m)] :: D) :: Y))
      [X.length, C.length]
      = DNode.elem "BODY" (X ++ DNode.elem ptag
          (C ++ DNode.text (String.mk m) :: D) :: Y) := by
    show DNode.elem "BODY" ((X ++ DNode.elem ptag
        (C ++ DNode.elem (upStr tagName) [DNode.text (String.mk m)] :: D) :: Y).set X.length
        (unwrapElement ((X ++ DNode.elem ptag
          (C ++ DNode.elem (upStr tagName) [DNode.text (String.mk m)] :: D) :: Y).getD
            X.length default) [C.length])) = _
    rw [getD_middle]
    show DNode.elem "BODY" ((X ++ DNode.elem ptag
        (C ++ DNode.elem (upStr tagName) [DNode.text (String.mk m)] :: D) :: Y).set X.length
        (DNode.elem ptag
          ((C ++ DNode.elem (upStr tagName) [DNode.text (String.mk m)] :: D).take C.length
            ++ childrenOf ((C ++ DNode.elem (upStr tagName)
                [DNode.text (String.mk m)] :: D).getD C.length default)
            ++ (C ++ DNode.elem (upStr tagName)
                [DNode.text (String.mk m)] :: D).drop (C.length + 1)))) = _
    rw [getD_middle, List.take_left, drop_middle, set_middle]
    show DNode.elem "BODY" (X ++ DNode.elem ptag
        (C ++ [DNode.text (String.mk m)] ++ D) :: Y) = _
    rw [append_singleton_middle]
  have hred : (applyInlineStyle tagName
      (DNode.elem "BODY" (X ++ DNode.elem ptag
        (C ++ DNode.elem (upStr tagName) [DNode.text (String.mk m)] :: D) :: Y))
      ⟨⟨[X.length, C.length], 0⟩, ⟨[X.length, C.length], 1⟩⟩).1
      = unwrapElement (DNode.elem "BODY" (X ++ DNode.elem ptag
        (C ++ DNode.elem (upStr tagName) [DNode.text (String.mk m)] :: D) :: Y))
        [X.length, C.length] := by
    simp only [applyInlineStyle, hcol2, Bool.false_eq_true, if_false, hfound]
    rw [if_pos hts]
    split <;> rfl
  rw [hred, hunwrap]

/-! Claim theorems. -/

/-- C9: for every document and collapsed selection, `applyInlineStyle` is a
no-op returning the input document and selection unchanged, with no
failure signal. -/
theorem c9_collapsed_noop (tagName : String) (doc : DNode) (r : SelRange)
    (h : r.s = r.e) : applyInlineStyle tagName doc r = (doc, r) := by
  simp [applyInlineStyle, isRangeEmpty, h]

/-- Witness for C9 at a concrete collapsed selection. -/
theorem c9_collapsed_noop_witness :
    (⟨⟨[0, 0], 2⟩, ⟨[0, 0], 2⟩⟩ : SelRange).s = (⟨⟨[0, 0], 2⟩, ⟨[0, 0], 2⟩⟩ : SelRange).e ∧
    applyInlineStyle "strong" (.elem "BODY" [.elem "P" [.text "hi"]])
      ⟨⟨[0, 0], 2⟩, ⟨[0, 0], 2⟩⟩ =
      ((.elem "BODY" [.elem "P" [.text "hi"]]), ⟨⟨[0, 0], 2⟩, ⟨[0, 0], 2⟩⟩) :=
  ⟨rfl, c9_collapsed_noop "strong" _ _ rfl⟩

/-- C10: when the selection has an enclosing `UL` or `OL` but no enclosing
`LI`, `toggleList` performs no mutation: document and selection are
returned unchanged. -/
theorem c10_no_listitem_noop (listType : String) (doc : DNode) (r : SelRange)
    (lp : List Nat)
    (hul : (hasParentWithTag doc (cacPath r) "ul").orElse
      (fun _ => hasParentWithTag doc (cacPath r) "ol") = some lp)
    (hli : hasParentWithTag doc (cacPath r) "li" = none) :
    toggleList listType doc r = (doc, r) := by
  simp [toggleList, hul, hli]

/-- Witness for C10: a `UL` holding a stray `P` (no `LI` anywhere above the
selection); the call leaves everything unchanged. -/
theorem c10_no_listitem_noop_witness :
    ((hasParentWithTag (.elem "BODY" [.elem "UL" [.elem "P" [.text "x"]]])
        (cacPath ⟨⟨[0, 0, 0], 0⟩, ⟨[0, 0, 0], 1⟩⟩) "ul").orElse
      (fun _ => hasParentWithTag (.elem "BODY" [.elem "UL" [.elem "P" [.text "x"]]])
        (cacPath ⟨⟨[0, 0, 0], 0⟩, ⟨[0, 0, 0], 1⟩⟩) "ol") = some [0]) ∧
    toggleList "ul" (.elem "BODY" [.elem "UL" [.elem "P" [.text "x"]]])
      ⟨⟨[0, 0, 0], 0⟩, ⟨[0, 0, 0], 1⟩⟩ =
      ((.elem "BODY" [.elem "UL" [.elem "P" [.text "x"]]]),
        ⟨⟨[0, 0, 0], 0⟩, ⟨[0, 0, 0], 1⟩⟩) :=
  ⟨by decide, c10_no_listitem_noop "ul" _ _ [0] (by decide) (by decide)⟩

/-- C4, counterexample: inside a `UL`, requesting kind `ol` does not nest a
new ordered list (as the claim states); the toggle-off branch runs and
collapses the list to a paragraph, and no `OL` element exists anywhere in
the result. -/
theorem c4_counterexample :
    (toggleList "ol" (.elem "BODY" [.elem "UL" [.elem "LI" [.text "x"]]])
        ⟨⟨[0, 0], 0⟩, ⟨[0, 0], 0⟩⟩).1 =
      .elem "BODY" [.elem "P" [.text "x"]] ∧
    containsTag (toggleList "ol" (.elem "BODY" [.elem "UL" [.elem "LI" [.text "x"]]])
        ⟨⟨[0, 0], 0⟩, ⟨[0, 0], 0⟩⟩).1 "OL" = false := by
  constructor
  · rfl
  · rfl

/-- C4, amended: `toggleList` never compares the requested kind with the
enclosing list's kind; whenever the selection sits inside any list (`UL`
or `OL`), the toggle-off branch runs and the result is independent of the
requested kind. -/
theorem c4_amended (doc : DNode) (r : SelRange) (k1 k2 : String)
    (lp : List Nat)
    (hul : (hasParentWithTag doc (cacPath r) "ul").orElse
      (fun _ => hasParentWithTag doc (cacPath r) "ol") = some lp) :
    toggleList k1 doc r = toggleList k2 doc r := by
  simp [toggleList, hul]

/-- C5: toggling a list off when the enclosing list has exactly one item
replaces the whole list node, at its tree position, by a single paragraph
carrying the item's former children; no list node remains there.  Stated
for a single-item list of either kind at an arbitrary top-level position
with the selection on its item. -/
theorem c5_single_item_collapse (k L : String) (A B cs : List DNode)
    (hL : L = "UL" ∨ L = "OL") :
    toggleList k (.elem "BODY" (A ++ .elem L [.elem "LI" cs] :: B))
      ⟨⟨[A.length, 0], 0⟩, ⟨[A.length, 0], 0⟩⟩ =
    (.elem "BODY" (A ++ .elem "P" cs :: B),
      ⟨⟨[A.length], cs.length⟩, ⟨[A.length], cs.length⟩⟩) := by
  have hgetList : getNode? (DNode.elem "BODY" (A ++ .elem L [.elem "LI" cs] :: B))
      [A.length] = some (.elem L [.elem "LI" cs]) := by
    simpa using getNode?_middle "BODY" A (.elem L [.elem "LI" cs]) B []
  have hgetLi : getNode? (DNode.elem "BODY" (A ++ .elem L [.elem "LI" cs] :: B))
      [A.length, 0] = some (.elem "LI" cs) := by
    have h := getNode?_middle "BODY" A (.elem L [.elem "LI" cs]) B [0]
    simpa [getNode?] using h
  have hcac : cacPath ⟨⟨[A.length, 0], 0⟩, ⟨[A.length, 0], 0⟩⟩ = [A.length, 0] := by
    simp [cacPath, commonAncPath_self]
  have hrepl : replaceNodeAt (DNode.elem "BODY" (A ++ .elem L [.elem "LI" cs] :: B))
      [A.length] (.elem "P" cs) = .elem "BODY" (A ++ .elem "P" cs :: B) := by
    simp [replaceNodeAt, set_middle]
  have hget1 : getNode? (DNode.elem "BODY" (A ++ .elem "P" cs :: B)) [A.length]
      = some (.elem "P" cs) := by
    simpa using getNode?_middle "BODY" A (.elem "P" cs) B []
  rcases hL with h | h <;> subst h
  · have h1 : hasParentWithTag (DNode.elem "BODY" (A ++ .elem "UL" [.elem "LI" cs] :: B))
        [A.length, 0] "ul" = some [A.length] := by
      simp [hasParentWithTag, ancestorsDesc_two, show upStr "ul" = "UL" from rfl,
        List.find?, isTagAt, hgetList, hgetLi]
    have hli : hasParentWithTag (DNode.elem "BODY" (A ++ .elem "UL" [.elem "LI" cs] :: B))
        [A.length, 0] "li" = some [A.length, 0] := by
      simp [hasParentWithTag, ancestorsDesc_two, show upStr "li" = "LI" from rfl,
        List.find?, isTagAt, hgetLi]
    simp [toggleList, hcac, h1, hli, nodeAtD, hgetLi, hgetList, elemChildCount,
      childrenOf, isElemNode, hrepl, collapseEnd, hget1, contentLen]
  · have h1 : hasParentWithTag (DNode.elem "BODY" (A ++ .elem "OL" [.elem "LI" cs] :: B))
        [A.length, 0] "ul" = none := by
      simp [hasParentWithTag, ancestorsDesc_two, show upStr "ul" = "UL" from rfl,
        List.find?, isTagAt, hgetList, hgetLi]
    have h2 : hasParentWithTag (DNode.elem "BODY" (A ++ .elem "OL" [.elem "LI" cs] :: B))
        [A.length, 0] "ol" = some [A.length] := by
      simp [hasParentWithTag, ancestorsDesc_two, show upStr "ol" = "OL" from rfl,
        List.find?, isTagAt, hgetList, hgetLi]
    have hli : hasParentWithTag (DNode.elem "BODY" (A ++ .elem "OL" [.elem "LI" cs] :: B))
        [A.length, 0] "li" = some [A.length, 0] := by
      simp [hasParentWithTag, ancestorsDesc_two, show upStr "li" = "LI" from rfl,
        List.find?, isTagAt, hgetLi]
    simp [toggleList, hcac, h1, h2, hli, nodeAtD, hgetLi, hgetList, elemChildCount,
      childrenOf, isElemNode, hrepl, collapseEnd, hget1, contentLen]

theorem replaceNodeAt_two (t1 t2 : String) (A B C D : List DNode) (x new : DNode) :
    replaceNodeAt (.elem t1 (A ++ .elem t2 (C ++ x :: D) :: B)) [A.length, C.length] new
      = .elem t1 (A ++ .elem t2 (C ++ new :: D) :: B) := by
  have h1 : replaceNodeAt (.elem t2 (C ++ x :: D)) [C.length] new
      = .elem t2 (C ++ new :: D) := by
    show DNode.elem t2 ((C ++ x :: D).set C.length new) = _
    rw [set_middle]
  show DNode.elem t1 ((A ++ .elem t2 (C ++ x :: D) :: B).set A.length
      (replaceNodeAt ((A ++ .elem t2 (C ++ x :: D) :: B).getD A.length default)
        [C.length] new)) = _
  rw [getD_middle, h1, set_middle]

/-- C6: with an enclosing block present, `applyBlockFormat` replaces it by
a paragraph with the same children when the block already has the
requested kind and by the requested kind with children preserved verbatim
otherwise; consequently, starting from a block of a different kind,
applying the same heading kind twice yields a paragraph and a third
application restores the heading, with identical children throughout. -/
theorem c6_block_toggle (k : String) (doc : DNode) (r : SelRange)
    (bp : List Nat) (btag : String) (bcs : List DNode)
    (hfind : findParentBlock doc (cacPath r) = some bp)
    (hnode : getNode? doc bp = some (.elem btag bcs))
    (hktag : blockTags.contains (upStr k) = true)
    (hkP : upStr k ≠ "P") :
    (applyBlockFormat k doc r).1
      = replaceNodeAt doc bp (.elem (if btag = upStr k then "P" else upStr k) bcs)
    ∧ (btag ≠ upStr k →
      (applyBlockFormat k (applyBlockFormat k doc r).1 (applyBlockFormat k doc r).2).1
        = replaceNodeAt doc bp (.elem "P" bcs)
      ∧ (applyBlockFormat k
          (applyBlockFormat k (applyBlockFormat k doc r).1 (applyBlockFormat k doc r).2).1
          (applyBlockFormat k (applyBlockFormat k doc r).1 (applyBlockFormat k doc r).2).2).1
        = replaceNodeAt doc bp (.elem (upStr k) bcs)) := by
  have hne : bp ≠ [] := (findParentBlock_props hfind).1
  have h1 := applyBlockFormat_block k doc r bp btag bcs hfind hnode
  refine ⟨by rw [h1], fun hneq => ?_⟩
  rw [if_neg hneq] at h1
  have hnode1 : getNode? (replaceNodeAt doc bp (.elem (upStr k) bcs)) bp
      = some (.elem (upStr k) bcs) :=
    getNode?_replaceNodeAt_self bp doc _ _ hne hnode
  have hfind1 : findParentBlock (replaceNodeAt doc bp (.elem (upStr k) bcs))
      (cacPath (collapseEnd (replaceNodeAt doc bp (.elem (upStr k) bcs)) bp)) = some bp := by
    rw [cacPath_collapseEnd]
    exact findParentBlock_self _ bp (upStr k) bcs hnode1 hktag hne
  have h2 := applyBlockFormat_block k (replaceNodeAt doc bp (.elem (upStr k) bcs))
    (collapseEnd (replaceNodeAt doc bp (.elem (upStr k) bcs)) bp) bp (upStr k) bcs
    hfind1 hnode1
  rw [if_pos rfl] at h2
  have hcomp2 : replaceNodeAt (replaceNodeAt doc bp (.elem (upStr k) bcs)) bp (.elem "P" bcs)
      = replaceNodeAt doc bp (.elem "P" bcs) :=
    replaceNodeAt_replace bp doc _ _ _ hnode
  have hnode2 : getNode? (replaceNodeAt (replaceNodeAt doc bp (.elem (upStr k) bcs)) bp
      (.elem "P" bcs)) bp = some (.elem "P" bcs) :=
    getNode?_replaceNodeAt_self bp _ _ _ hne hnode1
  have hfind2 : findParentBlock
      (replaceNodeAt (replaceNodeAt doc bp (.elem (upStr k) bcs)) bp (.elem "P" bcs))
      (cacPath (collapseEnd (replaceNodeAt (replaceNodeAt doc bp (.elem (upStr k) bcs)) bp
        (.elem "P" bcs)) bp)) = some bp := by
    rw [cacPath_collapseEnd]
    exact findParentBlock_self _ bp "P" bcs hnode2 rfl hne
  have h3 := applyBlockFormat_block k
    (replaceNodeAt (replaceNodeAt doc bp (.elem (upStr k) bcs)) bp (.elem "P" bcs))
    (collapseEnd (replaceNodeAt (replaceNodeAt doc bp (.elem (upStr k) bcs)) bp
      (.elem "P" bcs)) bp) bp "P" bcs hfind2 hnode2
  rw [if_neg (fun hh => hkP hh.symm)] at h3
  constructor
  · rw [h1]
    show (applyBlockFormat k (replaceNodeAt doc bp (.elem (upStr k) bcs))
      (collapseEnd (replaceNodeAt doc bp (.elem (upStr k) bcs)) bp)).1
      = replaceNodeAt doc bp (.elem "P" bcs)
    rw [h2]
    exact hcomp2
  · rw [h1]
    show (applyBlockFormat k
        (applyBlockFormat k (replaceNodeAt doc bp (.elem (upStr k) bcs))
          (collapseEnd (replaceNodeAt doc bp (.elem (upStr k) bcs)) bp)).1
        (applyBlockFormat k (replaceNodeAt doc bp (.elem (upStr k) bcs))
          (collapseEnd (replaceNodeAt doc bp (.elem (upStr k) bcs)) bp)).2).1
      = replaceNodeAt doc bp (.elem (upStr k) bcs)
    rw [h2]
    show (applyBlockFormat k
        (replaceNodeAt (replaceNodeAt doc bp (.elem (upStr k) bcs)) bp (.elem "P" bcs))
        (collapseEnd (replaceNodeAt (replaceNodeAt doc bp (.elem (upStr k) bcs)) bp
          (.elem "P" bcs)) bp)).1
      = replaceNodeAt doc bp (.elem (upStr k) bcs)
    rw [h3]
    rw [replaceNodeAt_replace bp (replaceNodeAt doc bp (.elem (upStr k) bcs))
      (.elem (upStr k) bcs) (.elem "P" bcs) (.elem (upStr k) bcs) hnode1]
    exact replaceNodeAt_replace bp doc (.elem btag bcs) (.elem (upStr k) bcs)
      (.elem (upStr k) bcs) hnode

/-- Witness for C6: a paragraph toggled with `h1` three times through the
returned selections passes through `H1`, `P`, `H1` with the same child. -/
theorem c6_block_toggle_witness :
    findParentBlock (.elem "BODY" [.elem "P" [.text "t"]])
      (cacPath ⟨⟨[0, 0], 0⟩, ⟨[0, 0], 1⟩⟩) = some [0] ∧
    getNode? (.elem "BODY" [.elem "P" [.text "t"]]) [0] = some (.elem "P" [.text "t"]) ∧
    blockTags.contains (upStr "h1") = true ∧
    upStr "h1" ≠ "P" ∧
    ("P" : String) ≠ upStr "h1" ∧
    (applyBlockFormat "h1" (.elem "BODY" [.elem "P" [.text "t"]])
        ⟨⟨[0, 0], 0⟩, ⟨[0, 0], 1⟩⟩).1
      = replaceNodeAt (.elem "BODY" [.elem "P" [.text "t"]]) [0]
          (.elem (if ("P" : String) = upStr "h1" then "P" else upStr "h1") [.text "t"]) := by
  refine ⟨by decide, by decide, by decide, by decide, by decide, ?_⟩
  exact (c6_block_toggle "h1" (.elem "BODY" [.elem "P" [.text "t"]])
    ⟨⟨[0, 0], 0⟩, ⟨[0, 0], 1⟩⟩ [0] "P" [.text "t"]
    (by decide) (by decide) (by decide) (by decide)).1

/-- C3, counterexample: toggling list-off on the middle item of
`UL[LI a, LI b, LI c]` does not produce the claimed region
`[UL[LI a, LI c], P b]` with the paragraph beside the list; the paragraph
replaces the item in place, inside the list. -/
theorem c3_counterexample :
    (toggleList "ul"
        (.elem "BODY" [.elem "UL" [.elem "LI" [.text "a"], .elem "LI" [.text "b"],
          .elem "LI" [.text "c"]]])
        ⟨⟨[0, 1], 0⟩, ⟨[0, 1], 0⟩⟩).1 =
      .elem "BODY" [.elem "UL" [.elem "LI" [.text "a"], .elem "P" [.text "b"],
        .elem "LI" [.text "c"]]] ∧
    (toggleList "ul"
        (.elem "BODY" [.elem "UL" [.elem "LI" [.text "a"], .elem "LI" [.text "b"],
          .elem "LI" [.text "c"]]])
        ⟨⟨[0, 1], 0⟩, ⟨[0, 1], 0⟩⟩).1 ≠
      .elem "BODY" [.elem "UL" [.elem "LI" [.text "a"], .elem "LI" [.text "c"]],
        .elem "P" [.text "b"]] :=
  ⟨rfl, by decide⟩

/-- C3, amended: toggling list-off on a middle item of a multi-item list
converts only that item, but the resulting paragraph replaces the item in
place inside the list (it is not placed beside the list): the list node
survives with the other items unaffected, in original relative order, and
the paragraph carrying the item's former children sits between them among
the list's children. -/
theorem c3_amended (k L : String) (A B C D cs : List DNode)
    (hL : L = "UL" ∨ L = "OL")
    (hcount : elemChildCount (.elem L (C ++ .elem "LI" cs :: D)) ≠ 1) :
    toggleList k (.elem "BODY" (A ++ .elem L (C ++ .elem "LI" cs :: D) :: B))
      ⟨⟨[A.length, C.length], 0⟩, ⟨[A.length, C.length], 0⟩⟩ =
    (.elem "BODY" (A ++ .elem L (C ++ .elem "P" cs :: D) :: B),
      ⟨⟨[A.length, C.length], cs.length⟩, ⟨[A.length, C.length], cs.length⟩⟩) := by
  have hgetList : getNode? (DNode.elem "BODY" (A ++ .elem L (C ++ .elem "LI" cs :: D) :: B))
      [A.length] = some (.elem L (C ++ .elem "LI" cs :: D)) := by
    simpa using getNode?_middle "BODY" A (.elem L (C ++ .elem "LI" cs :: D)) B []
  have hgetLi : getNode? (DNode.elem "BODY" (A ++ .elem L (C ++ .elem "LI" cs :: D) :: B))
      [A.length, C.length] = some (.elem "LI" cs) := by
    have h1 := getNode?_middle "BODY" A (.elem L (C ++ .elem "LI" cs :: D)) B [C.length]
    have h2 := getNode?_middle L C (.elem "LI" cs) D []
    exact (h1.trans h2).trans rfl
  have hcac : cacPath ⟨⟨[A.length, C.length], 0⟩, ⟨[A.length, C.length], 0⟩⟩
      = [A.length, C.length] := by
    simp [cacPath, commonAncPath_self]
  have hrepl : replaceNodeAt (DNode.elem "BODY" (A ++ .elem L (C ++ .elem "LI" cs :: D) :: B))
      [A.length, C.length] (.elem "P" cs)
      = .elem "BODY" (A ++ .elem L (C ++ .elem "P" cs :: D) :: B) :=
    replaceNodeAt_two "BODY" L A B C D (.elem "LI" cs) (.elem "P" cs)
  have hget1 : getNode? (DNode.elem "BODY" (A ++ .elem L (C ++ .elem "P" cs :: D) :: B))
      [A.length, C.length] = some (.elem "P" cs) := by
    have h1 := getNode?_middle "BODY" A (.elem L (C ++ .elem "P" cs :: D)) B [C.length]
    have h2 := getNode?_middle L C (.elem "P" cs) D []
    exact (h1.trans h2).trans rfl
  rcases hL with h | h <;> subst h
  · have h1 : hasParentWithTag
        (DNode.elem "BODY" (A ++ .elem "UL" (C ++ .elem "LI" cs :: D) :: B))
        [A.length, C.length] "ul" = some [A.length] := by
      simp [hasParentWithTag, ancestorsDesc_two, show upStr "ul" = "UL" from rfl,
        List.find?, isTagAt, hgetList, hgetLi]
    have hli : hasParentWithTag
        (DNode.elem "BODY" (A ++ .elem "UL" (C ++ .elem "LI" cs :: D) :: B))
        [A.length, C.length] "li" = some [A.length, C.length] := by
      simp [hasParentWithTag, ancestorsDesc_two, show upStr "li" = "LI" from rfl,
        List.find?, isTagAt, hgetLi]
    simp [toggleList, hcac, h1, hli, nodeAtD, hgetLi, hgetList, hcount,
      childrenOf, hrepl, collapseEnd, hget1, contentLen]
  · have h1 : hasParentWithTag
        (DNode.elem "BODY" (A ++ .elem "OL" (C ++ .elem "LI" cs :: D) :: B))
        [A.length, C.length] "ul" = none := by
      simp [hasParentWithTag, ancestorsDesc_two, show upStr "ul" = "UL" from rfl,
        List.find?, isTagAt, hgetList, hgetLi]
    have h2 : hasParentWithTag
        (DNode.elem "BODY" (A ++ .elem "OL" (C ++ .elem "LI" cs :: D) :: B))
        [A.length, C.length] "ol" = some [A.length] := by
      simp [hasParentWithTag, ancestorsDesc_two, show upStr "ol" = "OL" from rfl,
        List.find?, isTagAt, hgetList, hgetLi]
    have hli : hasParentWithTag
        (DNode.elem "BODY" (A ++ .elem "OL" (C ++ .elem "LI" cs :: D) :: B))
        [A.length, C.length] "li" = some [A.length, C.length] := by
      simp [hasParentWithTag, ancestorsDesc_two, show upStr "li" = "LI" from rfl,
        List.find?, isTagAt, hgetLi]
    simp [toggleList, hcac, h1, h2, hli, nodeAtD, hgetLi, hgetList, hcount,
      childrenOf, hrepl, collapseEnd, hget1, contentLen]

/-- Witness for C3's amended statement on the list `[a, b, c]`. -/
theorem c3_amended_witness :
    (("UL" : String) = "UL" ∨ ("UL" : String) = "OL") ∧
    elemChildCount (.elem "UL" [.elem "LI" [.text "a"], .elem "LI" [.text "b"],
      .elem "LI" [.text "c"]]) ≠ 1 ∧
    toggleList "ul"
      (.elem "BODY" [.elem "UL" [.elem "LI" [.text "a"], .elem "LI" [.text "b"],
        .elem "LI" [.text "c"]]])
      ⟨⟨[0, 1], 0⟩, ⟨[0, 1], 0⟩⟩ =
    (.elem "BODY" [.elem "UL" [.elem "LI" [.text "a"], .elem "P" [.text "b"],
        .elem "LI" [.text "c"]]],
      ⟨⟨[0, 1], 1⟩, ⟨[0, 1], 1⟩⟩) :=
  ⟨Or.inl rfl, by decide,
    c3_amended "ul" "UL" [] [] [.elem "LI" [.text "a"]] [.elem "LI" [.text "c"]]
      [.text "b"] (Or.inl rfl) (by decide)⟩

/-- C2, code evaluation at the failing input: a document satisfying every
structural invariant on which `toggleList` produces a `P` element as a
direct child of the `UL`, violating the invariant that list children are
exclusively list items. -/
theorem c2_invariant_violation :
    validDocB (.elem "BODY" [.elem "UL" [.elem "LI" [.text "a"], .elem "LI" [.text "b"],
      .elem "LI" [.text "c"]]]) = true ∧
    (toggleList "ul"
        (.elem "BODY" [.elem "UL" [.elem "LI" [.text "a"], .elem "LI" [.text "b"],
          .elem "LI" [.text "c"]]])
        ⟨⟨[0, 1], 0⟩, ⟨[0, 1], 0⟩⟩).1 =
      .elem "BODY" [.elem "UL" [.elem "LI" [.text "a"], .elem "P" [.text "b"],
        .elem "LI" [.text "c"]]] ∧
    validDocB (toggleList "ul"
        (.elem "BODY" [.elem "UL" [.elem "LI" [.text "a"], .elem "LI" [.text "b"],
          .elem "LI" [.text "c"]]])
        ⟨⟨[0, 1], 0⟩, ⟨[0, 1], 0⟩⟩).1 = false :=
  ⟨rfl, rfl, rfl⟩

/-- Witness for C5: a one-item unordered list between two paragraphs
collapses to a paragraph in place. -/
theorem c5_single_item_collapse_witness :
    (("UL" : String) = "UL" ∨ ("UL" : String) = "OL") ∧
    toggleList "ul"
      (.elem "BODY" [.elem "P" [.text "a"], .elem "UL" [.elem "LI" [.text "x"]],
        .elem "P" [.text "b"]])
      ⟨⟨[1, 0], 0⟩, ⟨[1, 0], 0⟩⟩ =
    (.elem "BODY" [.elem "P" [.text "a"], .elem "P" [.text "x"], .elem "P" [.text "b"]],
      ⟨⟨[1], 1⟩, ⟨[1], 1⟩⟩) :=
  ⟨Or.inl rfl,
    c5_single_item_collapse "ul" "UL" [.elem "P" [.text "a"]] [.elem "P" [.text "b"]]
      [.text "x"] (Or.inl rfl)⟩

/-- Witness for C4's amended statement: requesting `ol` inside a `UL`
behaves exactly like requesting `ul`. -/
theorem c4_amended_witness :
    ((hasParentWithTag (.elem "BODY" [.elem "UL" [.elem "LI" [.text "x"]]])
        (cacPath ⟨⟨[0, 0], 0⟩, ⟨[0, 0], 0⟩⟩) "ul").orElse
      (fun _ => hasParentWithTag (.elem "BODY" [.elem "UL" [.elem "LI" [.text "x"]]])
        (cacPath ⟨⟨[0, 0], 0⟩, ⟨[0, 0], 0⟩⟩) "ol") = some [0]) ∧
    toggleList "ol" (.elem "BODY" [.elem "UL" [.elem "LI" [.text "x"]]])
        ⟨⟨[0, 0], 0⟩, ⟨[0, 0], 0⟩⟩ =
      toggleList "ul" (.elem "BODY" [.elem "UL" [.elem "LI" [.text "x"]]])
        ⟨⟨[0, 0], 0⟩, ⟨[0, 0], 0⟩⟩ :=
  ⟨by decide, c4_amended _ _ "ol" "ul" [0] (by decide)⟩

/-- C8, counterexample: unwrapping an exactly-covered styled node does not
merge the adjacent text siblings produced by the splice; the result keeps
`Text a` and `Text b` as two separate children, not one merged `Text ab`. -/
theorem c8_counterexample :
    (applyInlineStyle "strong"
        (.elem "BODY" [.elem "P" [.text "a", .elem "STRONG" [.text "b"]]])
        ⟨⟨[0, 1, 0], 0⟩, ⟨[0, 1, 0], 1⟩⟩).1
      = .elem "BODY" [.elem "P" [.text "a", .text "b"]] ∧
    (applyInlineStyle "strong"
        (.elem "BODY" [.elem "P" [.text "a", .elem "STRONG" [.text "b"]]])
        ⟨⟨[0, 1, 0], 0⟩, ⟨[0, 1, 0], 1⟩⟩).1
      ≠ .elem "BODY" [.elem "P" [.text "ab"]] :=
  ⟨rfl, by decide⟩

/-- C8, amended: when the selection's text extent exactly covers an
ancestor styled element of the requested style (here with a single text
child), the element is unwrapped with its children spliced into the parent
at the same position, adjacent text siblings are left unmerged, and the
returned selection spans the first text child of the parent whose content
equals the unwrapped element's former text content. -/
theorem c8_amended (tagName ptag t : String) (X Y A B : List DNode)
    (htlen : t.length ≠ 0)
    (hA : ∀ c ∈ A, (fun c => match c with
      | DNode.text s2 => decide (s2 = t)
      | DNode.elem _ _ => false) c = false) :
    applyInlineStyle tagName
      (.elem "BODY" (X ++ .elem ptag (A ++ .elem (upStr tagName) [.text t] :: B) :: Y))
      ⟨⟨[X.length, A.length, 0], 0⟩, ⟨[X.length, A.length, 0], t.length⟩⟩
    = (.elem "BODY" (X ++ .elem ptag (A ++ .text t :: B) :: Y),
      ⟨⟨[X.length, A.length], 0⟩, ⟨[X.length, A.length], t.length⟩⟩) := by
  have hcac : cacPath ⟨⟨[X.length, A.length, 0], 0⟩, ⟨[X.length, A.length, 0], t.length⟩⟩
      = [X.length, A.length, 0] := by
    simp [cacPath, commonAncPath_self]
  have hnodeBlock : getNode?
      (DNode.elem "BODY" (X ++ .elem ptag (A ++ .elem (upStr tagName) [.text t] :: B) :: Y))
      [X.length] = some (.elem ptag (A ++ .elem (upStr tagName) [.text t] :: B)) := by
    simpa using getNode?_middle "BODY" X _ Y []
  have hnodeSp : getNode?
      (DNode.elem "BODY" (X ++ .elem ptag (A ++ .elem (upStr tagName) [.text t] :: B) :: Y))
      [X.length, A.length] = some (.elem (upStr tagName) [.text t]) := by
    have h1 := getNode?_middle "BODY" X
      (.elem ptag (A ++ .elem (upStr tagName) [.text t] :: B)) Y [A.length]
    have h2 := getNode?_middle ptag A (.elem (upStr tagName) [.text t]) B []
    exact (h1.trans h2).trans rfl
  have hnodeTxt : getNode?
      (DNode.elem "BODY" (X ++ .elem ptag (A ++ .elem (upStr tagName) [.text t] :: B) :: Y))
      [X.length, A.length, 0] = some (.text t) := by
    have h1 := getNode?_middle "BODY" X
      (.elem ptag (A ++ .elem (upStr tagName) [.text t] :: B)) Y [A.length, 0]
    have h2 := getNode?_middle ptag A (.elem (upStr tagName) [.text t]) B [0]
    exact (h1.trans h2).trans rfl
  have hfound : hasParentWithTag
      (DNode.elem "BODY" (X ++ .elem ptag (A ++ .elem (upStr tagName) [.text t] :: B) :: Y))
      [X.length, A.length, 0] tagName = some [X.length, A.length] := by
    simp [hasParentWithTag, ancestorsDesc_three, List.find?, isTagAt, hnodeTxt, hnodeSp]
  have hgoff : ∀ off : Nat,
      gOffTop (DNode.elem "BODY"
          (X ++ .elem ptag (A ++ .elem (upStr tagName) [.text t] :: B) :: Y))
        ⟨[X.length, A.length, 0], off⟩
      = (listChars X).length + ((listChars A).length + off) := by
    intro off
    show gOffList (X ++ .elem ptag (A ++ .elem (upStr tagName) [.text t] :: B) :: Y)
      (X.length :: A.length :: 0 :: []) off = _
    rw [gOffList_cons, List.take_left, getD_middle]
    show (listChars X).length
      + gOffList (A ++ .elem (upStr tagName) [.text t] :: B) (A.length :: 0 :: []) off = _
    rw [gOffList_cons, List.take_left, getD_middle]
    show (listChars X).length + ((listChars A).length + gOffList [.text t] (0 :: []) off) = _
    show (listChars X).length + ((listChars A).length + (0 + off)) = _
    rw [Nat.zero_add]
  have hchars : nodeChars (DNode.elem "BODY"
      (X ++ .elem ptag (A ++ .elem (upStr tagName) [.text t] :: B) :: Y))
      = (listChars X ++ listChars A) ++ t.data ++ (listChars B ++ listChars Y) := by
    simp [nodeChars, listChars, listChars_append]
  have hrts : rangeToString
      (DNode.elem "BODY" (X ++ .elem ptag (A ++ .elem (upStr tagName) [.text t] :: B) :: Y))
      ⟨⟨[X.length, A.length, 0], 0⟩, ⟨[X.length, A.length, 0], t.length⟩⟩ = t := by
    unfold rangeToString
    rw [show gOffTop (DNode.elem "BODY"
        (X ++ .elem ptag (A ++ .elem (upStr tagName) [.text t] :: B) :: Y))
        (⟨⟨[X.length, A.length, 0], 0⟩, ⟨[X.length, A.length, 0], t.length⟩⟩ : SelRange).s
        = (listChars X).length + ((listChars A).length + 0) from hgoff 0,
      show gOffTop (DNode.elem "BODY"
        (X ++ .elem ptag (A ++ .elem (upStr tagName) [.text t] :: B) :: Y))
        (⟨⟨[X.length, A.length, 0], 0⟩, ⟨[X.length, A.length, 0], t.length⟩⟩ : SelRange).e
        = (listChars X).length + ((listChars A).length + t.length) from hgoff t.length]
    rw [slice_of_decomp _ (listChars X ++ listChars A) t.data (listChars B ++ listChars Y)
      hchars _ _ (by simp) (by rw [List.length_append, show t.length = t.data.length from rfl]; omega)]
  have htc : nodeText (nodeAtD
      (DNode.elem "BODY" (X ++ .elem ptag (A ++ .elem (upStr tagName) [.text t] :: B) :: Y))
      [X.length, A.length]) = t := by
    simp [nodeAtD, hnodeSp, nodeText, nodeChars, listChars]
  have hunwrap : unwrapElement
      (DNode.elem "BODY" (X ++ .elem ptag (A ++ .elem (upStr tagName) [.text t] :: B) :: Y))
      [X.length, A.length]
      = .elem "BODY" (X ++ .elem ptag (A ++ .text t :: B) :: Y) := by
    show DNode.elem "BODY"
      ((X ++ .elem ptag (A ++ .elem (upStr tagName) [.text t] :: B) :: Y).set X.length
        (unwrapElement ((X ++ .elem ptag (A ++ .elem (upStr tagName) [.text t] :: B) :: Y).getD
          X.length default) [A.length])) = _
    rw [getD_middle]
    show DNode.elem "BODY"
      ((X ++ .elem ptag (A ++ .elem (upStr tagName) [.text t] :: B) :: Y).set X.length
        (.elem ptag ((A ++ .elem (upStr tagName) [.text t] :: B).take A.length
          ++ childrenOf ((A ++ .elem (upStr tagName) [.text t] :: B).getD A.length default)
          ++ (A ++ .elem (upStr tagName) [.text t] :: B).drop (A.length + 1)))) = _
    rw [getD_middle, List.take_left, drop_middle, set_middle]
    simp [childrenOf]
  have hcolfalse : isRangeEmpty
      (⟨⟨[X.length, A.length, 0], 0⟩, ⟨[X.length, A.length, 0], t.length⟩⟩ : SelRange)
      = false := by
    simp [isRangeEmpty, Pos.mk.injEq]
    omega
  have hnodeP1 : getNode? (DNode.elem "BODY" (X ++ .elem ptag (A ++ .text t :: B) :: Y))
      [X.length] = some (.elem ptag (A ++ .text t :: B)) := by
    simpa using getNode?_middle "BODY" X _ Y []
  have hnodeT1 : getNode? (DNode.elem "BODY" (X ++ .elem ptag (A ++ .text t :: B) :: Y))
      [X.length, A.length] = some (.text t) := by
    have h1 := getNode?_middle "BODY" X (.elem ptag (A ++ .text t :: B)) Y [A.length]
    have h2 := getNode?_middle ptag A (.text t) B []
    exact (h1.trans h2).trans rfl
  have hfidx : (A ++ .text t :: B).findIdx? (fun c => match c with
      | DNode.text s2 => decide (s2 = t)
      | DNode.elem _ _ => false) = some A.length :=
    findIdx?_middle _ A B _ hA (by simp)
  have hatd1 : nodeAtD (DNode.elem "BODY" (X ++ .elem ptag (A ++ .text t :: B) :: Y))
      [X.length] = .elem ptag (A ++ .text t :: B) := by
    simp [nodeAtD, hnodeP1]
  have hatd2 : nodeAtD (DNode.elem "BODY" (X ++ .elem ptag (A ++ .text t :: B) :: Y))
      [X.length, A.length] = .text t := by
    simp [nodeAtD, hnodeT1]
  have htc2 : nodeText ((getNode?
      (DNode.elem "BODY" (X ++ .elem ptag (A ++ .elem (upStr tagName) [.text t] :: B) :: Y))
      [X.length, A.length]).getD default) = t := htc
  simp only [applyInlineStyle, hcolfalse, Bool.false_eq_true, if_false, hcac, hfound]
  simp only [hrts, htc, htc2]
  simp only [ite_true]
  simp only [hunwrap, List.dropLast, hatd1, childrenOf, hfidx, List.singleton_append,
    selectContents, hatd2, contentLen]

/-- Witness for C8's amended statement: unwrapping `STRONG[b]` after
`Text a` leaves two unmerged text siblings and selects the text node
holding the unwrapped content. -/
theorem c8_amended_witness :
    ("b" : String).length ≠ 0 ∧
    applyInlineStyle "strong"
      (.elem "BODY" [.elem "P" [.text "a", .elem "STRONG" [.text "b"]]])
      ⟨⟨[0, 1, 0], 0⟩, ⟨[0, 1, 0], 1⟩⟩
    = (.elem "BODY" [.elem "P" [.text "a", .text "b"]],
      ⟨⟨[0, 1], 0⟩, ⟨[0, 1], 1⟩⟩) := by
  refine ⟨by decide, ?_⟩
  exact c8_amended "strong" "P" "b" [] [] [.text "a"] [] (by decide) (by decide)

/-- C1: every toolbar toggle operation (inline style, block format, list
toggle) preserves the flattened visible text of a valid document at a
valid selection: formatting changes structure, never text content.  The
placeholder edge cases (a collapsed selection creating a new empty block
or list item) insert only text-free structure (`<br>`), so the flattened
text is preserved there as well. -/
theorem c1_content_preservation (a : ToolbarAction) (doc : DNode) (r : SelRange)
    (hdoc : validDocB doc = true) (hr : validRange doc r = true) :
    nodeChars ((formatActions a doc r).1) = nodeChars doc := by
  cases a with
  | bold => exact applyInlineStyle_chars "strong" doc r hr
  | italic => exact applyInlineStyle_chars "em" doc r hr
  | underline => exact applyInlineStyle_chars "u" doc r hr
  | strikethrough => exact applyInlineStyle_chars "s" doc r hr
  | h1 => exact applyBlockFormat_chars "h1" doc r hr
  | h2 => exact applyBlockFormat_chars "h2" doc r hr
  | h3 => exact applyBlockFormat_chars "h3" doc r hr
  | blockquote => exact applyBlockFormat_chars "blockquote" doc r hr
  | ul => exact toggleList_chars "ul" doc r hdoc hr
  | ol => exact toggleList_chars "ol" doc r hdoc hr

/-- Witness for C1 at a concrete input: bolding the first character of a
one-paragraph document preserves the document's flattened text. -/
theorem c1_content_preservation_witness :
    validDocB (DNode.elem "BODY" [DNode.elem "P" [DNode.text "ab"]]) = true
    ∧ validRange (DNode.elem "BODY" [DNode.elem "P" [DNode.text "ab"]])
        ⟨⟨[0, 0], 0⟩, ⟨[0, 0], 1⟩⟩ = true
    ∧ nodeChars ((formatActions ToolbarAction.bold
        (DNode.elem "BODY" [DNode.elem "P" [DNode.text "ab"]])
        ⟨⟨[0, 0], 0⟩, ⟨[0, 0], 1⟩⟩).1)
      = nodeChars (DNode.elem "BODY" [DNode.elem "P" [DNode.text "ab"]]) :=
  ⟨by decide, by decide,
    c1_content_preservation ToolbarAction.bold
      (DNode.elem "BODY" [DNode.elem "P" [DNode.text "ab"]])
      ⟨⟨[0, 0], 0⟩, ⟨[0, 0], 1⟩⟩ (by decide) (by decide)⟩


/-- C7 counterexample: with the selection covering the second half of a
styled element plus an adjacent character, the wrap step splits the `EM`
element (extraction clones its selected half, and the wrapper is inserted
after the trimmed `EM["a"]`); the second toggle unwraps the wrapper,
leaving `EM["a"], EM["b"], "c"` as siblings — and no amount of text-node
merging re-fuses the two split `EM` elements into the original
`EM["ab"]`.  The claimed double-toggle identity therefore fails for
selections that partially cover an existing styled element. -/
theorem c7_counterexample :
    isRangeEmpty (⟨⟨[0, 0, 0], 1⟩, ⟨[0, 1], 1⟩⟩ : SelRange) = false
    ∧ validDocB (DNode.elem "BODY"
        [DNode.elem "P" [DNode.elem "EM" [DNode.text "ab"], DNode.text "c"]]) = true
    ∧ validRange (DNode.elem "BODY"
        [DNode.elem "P" [DNode.elem "EM" [DNode.text "ab"], DNode.text "c"]])
        ⟨⟨[0, 0, 0], 1⟩, ⟨[0, 1], 1⟩⟩ = true
    ∧ normalizeNode ((applyInlineStyle "em"
        (applyInlineStyle "em"
          (DNode.elem "BODY"
            [DNode.elem "P" [DNode.elem "EM" [DNode.text "ab"], DNode.text "c"]])
          ⟨⟨[0, 0, 0], 1⟩, ⟨[0, 1], 1⟩⟩).1
        (applyInlineStyle "em"
          (DNode.elem "BODY"
            [DNode.elem "P" [DNode.elem "EM" [DNode.text "ab"], DNode.text "c"]])
          ⟨⟨[0, 0, 0], 1⟩, ⟨[0, 1], 1⟩⟩).2).1)
      ≠ normalizeNode (DNode.elem "BODY"
          [DNode.elem "P" [DNode.elem "EM" [DNode.text "ab"], DNode.text "c"]]) :=
  ⟨rfl, rfl, rfl, by decide⟩

/-- C7 amended: the double-toggle identity does hold (modulo merging of
adjacent text nodes, DOM `normalize()`) when the selection is a nonempty
subrange of a single text child of a block that does not itself carry the
style: the first toggle wraps the selected slice in a fresh styled
element, and the second finds that wrapper, whose text equals the
selection, and unwraps it; normalization merges the split text pieces
back together. -/
theorem c7_amended (tagName ptag t : String) (X Y A B : List DNode)
    (so eo : Nat) (hso : so < eo) (heo : eo ≤ t.length)
    (hptag : ptag ≠ upStr tagName) :
    normalizeNode ((applyInlineStyle tagName
        (applyInlineStyle tagName
          (.elem "BODY" (X ++ .elem ptag (A ++ .text t :: B) :: Y))
          ⟨⟨[X.length, A.length], so⟩, ⟨[X.length, A.length], eo⟩⟩).1
        (applyInlineStyle tagName
          (.elem "BODY" (X ++ .elem ptag (A ++ .text t :: B) :: Y))
          ⟨⟨[X.length, A.length], so⟩, ⟨[X.length, A.length], eo⟩⟩).2).1)
      = normalizeNode (.elem "BODY" (X ++ .elem ptag (A ++ .text t :: B) :: Y)) := by
  rw [applyInline_wrap_text tagName ptag t X Y A B so eo hso heo hptag]
  show normalizeNode ((applyInlineStyle tagName
      (DNode.elem "BODY" (X ++ DNode.elem ptag
        ((A ++ (if (t.data.take so).isEmpty then []
            else [DNode.text (String.mk (t.data.take so))]))
          ++ DNode.elem (upStr tagName) [DNode.text (String.mk ((t.data.take eo).drop so))]
            :: ((if (t.data.drop eo).isEmpty then []
                else [DNode.text (String.mk (t.data.drop eo))]) ++ B)) :: Y))
      ⟨⟨[X.length, (A ++ (if (t.data.take so).isEmpty then []
          else [DNode.text (String.mk (t.data.take so))])).length], 0⟩,
        ⟨[X.length, (A ++ (if (t.data.take so).isEmpty then []
          else [DNode.text (String.mk (t.data.take so))])).length], 1⟩⟩).1)
    = normalizeNode (DNode.elem "BODY" (X ++ DNode.elem ptag (A ++ DNode.text t :: B) :: Y))
  rw [applyInline_unwrap_wrapper tagName ptag X Y
    (A ++ (if (t.data.take so).isEmpty then []
      else [DNode.text (String.mk (t.data.take so))]))
    ((if (t.data.drop eo).isEmpty then []
      else [DNode.text (String.mk (t.data.drop eo))]) ++ B)
    ((t.data.take eo).drop so)]
  show DNode.elem "BODY" (normList (X ++ DNode.elem ptag
      ((A ++ (if (t.data.take so).isEmpty then []
          else [DNode.text (String.mk (t.data.take so))]))
        ++ DNode.text (String.mk ((t.data.take eo).drop so))
          :: ((if (t.data.drop eo).isEmpty then []
              else [DNode.text (String.mk (t.data.drop eo))]) ++ B)) :: Y))
    = DNode.elem "BODY" (normList (X ++ DNode.elem ptag (A ++ DNode.text t :: B) :: Y))
  refine congrArg (fun l => DNode.elem "BODY" l) ?_
  refine norm_congr_append X ?_
  rw [normList_cons_elem, normList_cons_elem]
  refine congrArg (fun l => DNode.elem ptag l :: normList Y) ?_
  rw [List.append_assoc A (if (t.data.take so).isEmpty then []
      else [DNode.text (String.mk (t.data.take so))])
    (DNode.text (String.mk ((t.data.take eo).drop so))
      :: ((if (t.data.drop eo).isEmpty then []
          else [DNode.text (String.mk (t.data.drop eo))]) ++ B))]
  refine norm_congr_append A ?_
  rw [norm_opt_text (t.data.take so)
    (DNode.text (String.mk ((t.data.take eo).drop so))
      :: ((if (t.data.drop eo).isEmpty then []
          else [DNode.text (String.mk (t.data.drop eo))]) ++ B))]
  rw [norm_text_cons (t.data.take so) ((t.data.take eo).drop so)
    ((if (t.data.drop eo).isEmpty then []
      else [DNode.text (String.mk (t.data.drop eo))]) ++ B)]
  rw [norm_text_opt (String.mk (t.data.take so ++ (t.data.take eo).drop so))
    (t.data.drop eo) B]
  rw [norm_text_cons (t.data.take so ++ (t.data.take eo).drop so) (t.data.drop eo) B]
  rw [show t.data.take so ++ (t.data.take eo).drop so ++ t.data.drop eo = t.data by
    have h1 : t.data.take so = (t.data.take eo).take so := by
      rw [List.take_take, Nat.min_eq_left (Nat.le_of_lt hso)]
    rw [h1, List.take_append_drop, List.take_append_drop]]

/-- Witness for C7's amended statement: toggling `em` on the middle
character of `abc` and toggling again on the returned document and
selection restores the original document after text-node merging. -/
theorem c7_amended_witness :
    (1 : Nat) < 2 ∧ 2 ≤ ("abc" : String).length ∧ ("P" : String) ≠ upStr "em" ∧
    normalizeNode ((applyInlineStyle "em"
        (applyInlineStyle "em"
          (.elem "BODY" [.elem "P" [.text "abc"]])
          ⟨⟨[0, 0], 1⟩, ⟨[0, 0], 2⟩⟩).1
        (applyInlineStyle "em"
          (.elem "BODY" [.elem "P" [.text "abc"]])
          ⟨⟨[0, 0], 1⟩, ⟨[0, 0], 2⟩⟩).2).1)
      = normalizeNode (.elem "BODY" [.elem "P" [.text "abc"]]) :=
  ⟨by decide, by decide, by decide,
    c7_amended "em" "P" "abc" [] [] [] [] 1 2 (by decide) (by decide) (by decide)⟩

end TN
